import Mathlib

namespace Ppsc

/-!
Verification of the `ppsc-build` code generator (a protobuf → Rust code
generation library): a shallow embedding, in Lean 4, of the components that
drive generation — the extern-path resolver (`src/extern_paths.rs`), the
indirection decision (`src/context.rs`), the map/bytes container choice
(`src/collections.rs`), the source-location (documentation) index
(`src/code_generator.rs`), the enum variant mapper
(`src/code_generator.rs`), and the generation orchestrator
(`src/code_generator.rs`, `src/config.rs`) — together with theorems about
the behaviour of these components.

Modules of the crate that are referenced but whose sources are not part of
the repository snapshot (`ident.rs`, `path.rs`, `message_graph.rs`,
`ast.rs`, `module.rs`, `code_generator/syntax.rs`) are either taken as
parameters (the casing conventions, the override-selector lookups, the
comment renderer) or modelled from the specification's words; each such
definition says so in its doc comment.

Rust `panic!` / failed `assert!` / `.unwrap()` on a missing value are
modelled with `Except Panic`: a `.error` value is an aborted generation.
-/


/-- The abnormal terminations (panics) the embedded code can take: a failed
assertion, the `unwrap` of a failed binary search in
`CodeGenerator::location`, the `unwrap` of a missing value, and the
`panic!` of `build_enum_value_mappings` on a generated-variant-name
collision (carrying the colliding generated name and the two source proto
names, as the panic message does). -/
inductive Panic where
  | assertFailed : Panic
  | missingLocation : Panic
  | unwrapNone : Panic
  | enumCollision (variant_name first_proto_name second_proto_name : String) : Panic
  deriving DecidableEq

/-- Association-list lookup: the model of `HashMap::get`. The maps so
modelled (`ExternPaths::extern_paths`, `generated_names` in
`build_enum_value_mappings`) have distinct keys by construction, so the
first match is the only match and iteration order is irrelevant. -/
def alookup {κ ν : Type} [DecidableEq κ] : List (κ × ν) → κ → Option ν
  | [], _ => none
  | (a, b) :: rest, k => if a = k then some b else alookup rest k

/-- `str::split(sep)` for a one-character separator, as in Rust: empty
pieces are kept and the empty string yields one empty piece. -/
def splitCharAux (sep : Char) : List Char → List Char → List String
  | [], acc => [String.mk acc.reverse]
  | c :: rest, acc =>
    if c = sep then String.mk acc.reverse :: splitCharAux sep rest []
    else splitCharAux sep rest (c :: acc)

def splitChar (sep : Char) (s : String) : List String :=
  splitCharAux sep s.data []

/-- `str::split("::")`, the one multi-character separator the code uses
(`ExternPaths::resolve_ident` splitting a registered Rust path). -/
def splitColonsAux : List Char → List Char → List String
  | [], acc => [String.mk acc.reverse]
  | ':' :: ':' :: rest, acc => String.mk acc.reverse :: splitColonsAux rest []
  | c :: rest, acc => splitColonsAux rest (c :: acc)

def splitColons (s : String) : List String :=
  splitColonsAux s.data []

/-- `Itertools::join(sep)` / building a path back from pieces. -/
def joinSep (sep : String) : List String → String
  | [] => ""
  | [s] => s
  | s :: rest => s ++ sep ++ joinSep sep rest

/-- The casing conventions of `crate::ident` (`ident.rs` is not among the
repository's source files, so the embedding is parametric in them):
`toSnake` is the "namespace" casing convention and `toUpperCamel` the
"declared-type" casing convention of spec §4.2; `stripEnumPrefixFn`
removes the enum's own name as a leading part of a variant name when
present (spec §4.5). -/
structure Casing where
  toSnake : String → String
  toUpperCamel : String → String
  stripEnumPrefixFn : String → String → String

/-- A casing that changes nothing: one concrete convention instance,
used by witnesses. -/
def idCasing : Casing := ⟨fun s => s, fun s => s, fun _ v => v⟩

/-! ## Extern type registry — `src/extern_paths.rs` -/

/-- `validate_proto_path` (`extern_paths.rs` lines 7–18): a registered
Protobuf path must begin with `'.'` and contain no empty segment after the
leading one. -/
def validate_proto_path (path : String) : Except String Unit :=
  if (path.data.head?.map (fun c => decide (c ≠ '.'))).getD true then
    .error ("Protobuf paths must be fully qualified (begin with a leading '.'): " ++ path)
  else if ((splitChar '.' path).drop 1).any String.isEmpty then
    .error ("invalid fully-qualified Protobuf path: " ++ path)
  else .ok ()

/-- The extern registry: the entries of the `extern_paths` map. Keys are
distinct whenever the registry was built by `ExternPaths.new`. -/
abbrev ExternPaths : Type := List (String × String)

/-- `ExternPaths::insert` (`extern_paths.rs` lines 38–50): validate, then
refuse a duplicate registration. -/
def ExternPaths.insert (m : ExternPaths) (proto_path rust_path : String) :
    Except String ExternPaths :=
  match validate_proto_path proto_path with
  | .error e => .error e
  | .ok _ =>
    match alookup m proto_path with
    | some _ => .error ("duplicate extern Protobuf path: " ++ proto_path)
    | none => .ok (m ++ [(proto_path, rust_path)])

/-- `ExternPaths::new` (`extern_paths.rs` lines 26–36). -/
def ExternPaths.new (paths : List (String × String)) : Except String ExternPaths :=
  paths.foldlM (fun m p => ExternPaths.insert m p.1 p.2) ([] : ExternPaths)

/-- The reference built on a prefix hit (`extern_paths.rs` lines 63–82):
the registered Rust path is split on `"::"`, chained with the remaining
schema segments minus the last, every chained segment is snake-cased
except a first segment that is literally `crate`, and the final schema
segment, upper-camel-cased, is appended; all joined with `"::"`.
`rest` is the list of schema segments after the matched prefix
(`pb_ident[idx + 1 ..].split('.')`), always non-empty at a call site. -/
def buildExternRef (c : Casing) (rust_path : String) (rest : List String) : String :=
  let ident_type := rest.getLast?.map c.toUpperCamel
  let front := splitColons rust_path ++ rest.dropLast
  let mapped := front.enum.map (fun p =>
    if p.1 = 0 ∧ p.2 = "crate" then p.2 else c.toSnake p.2)
  joinSep "::" (mapped ++ ident_type.toList)

/-- The prefix scan of `ExternPaths::resolve_ident` (`extern_paths.rs`
lines 61–84). `pb_ident.rmatch_indices('.')` visits the `'.'` occurrences
from rightmost to leftmost; truncating `pb_ident` at the `k`-th dot (from
the left, 1-based) is joining its first `k` `'.'`-separated segments, so
the scan tries the prefixes of `k = segs.length - 1` segments down to
`k = 1` segments and keeps the first (longest) registered one. -/
def externScan (c : Casing) (m : ExternPaths) (segs : List String) : Nat → Option String
  | 0 => none
  | k + 1 =>
    match alookup m (joinSep "." (segs.take (k + 1))) with
    | some rust_path => some (buildExternRef c rust_path (segs.drop (k + 1)))
    | none => externScan c m segs k

/-- Whether the first character is the qualifier separator:
`"." == &pb_ident[..1]` (on an empty string the Rust slice itself panics;
here the check is simply false, and the caller panics all the same). -/
def startsWithDot (s : String) : Bool :=
  match s.data with
  | '.' :: _ => true
  | _ => false

/-- `ExternPaths::resolve_ident` (`extern_paths.rs` lines 52–87): the
`assert_eq!(".", &pb_ident[..1])` is the `Panic` case; an exact
registration is returned unmodified; otherwise the longest-to-shortest
prefix scan runs. -/
def ExternPaths.resolve_ident (c : Casing) (m : ExternPaths) (pb_ident : String) :
    Except Panic (Option String) :=
  if startsWithDot pb_ident then
    match alookup m pb_ident with
    | some rust_path => .ok (some rust_path)
    | none =>
      let segs := splitChar '.' pb_ident
      .ok (externScan c m segs (segs.length - 1))
  else .error .assertFailed

/-- The reference builder of the amended claim C3: the registered target
path with each of its own `"::"` segments converted to the namespace
casing convention — except a leading segment that is the literal `crate`
keyword, passed through unescaped — then each remaining schema segment
namespace-cased, then the final schema segment declared-type-cased. -/
def buildExternRefDecl (c : Casing) (rust_path : String) (rest : List String) : String :=
  let rustMapped :=
    match splitColons rust_path with
    | [] => []
    | s :: tl => (if s = "crate" then s else c.toSnake s) :: tl.map c.toSnake
  joinSep "::"
    (rustMapped ++ rest.dropLast.map c.toSnake ++ (rest.getLast?.map c.toUpperCamel).toList)

/-- The segment count of the longest registered proper prefix of a
fully-qualified name (`0` when no prefix is registered). -/
def externPfxLen (m : ExternPaths) (segs : List String) : Nat :=
  Nat.findGreatest
    (fun j => (alookup m (joinSep "." (segs.take j))).isSome = true ∧ 1 ≤ j)
    (segs.length - 1)

/-- `resolve_ident` restated declaratively, in the words of amended claim
C3: panic unless fully qualified; an exact registration is returned
unmodified; otherwise the longest registered proper prefix, if any, is
rebuilt with `buildExternRefDecl`; `none` when no prefix is registered. -/
def resolveIdentDecl (c : Casing) (m : ExternPaths) (pb_ident : String) :
    Except Panic (Option String) :=
  if startsWithDot pb_ident then
    match alookup m pb_ident with
    | some rust_path => .ok (some rust_path)
    | none =>
      let segs := splitChar '.' pb_ident
      let k := externPfxLen m segs
      if k = 0 then .ok none
      else
        match alookup m (joinSep "." (segs.take k)) with
        | some rp => .ok (some (buildExternRefDecl c rp (segs.drop k)))
        | none => .ok none
  else .error .assertFailed

/-! ## Claims C3 and C4 — extern resolution -/

/-- The reference builder exactly as claim C3 words it: "the concatenation
of: the registered target path (as registered, unmodified), then each
remaining schema segment converted to the namespace casing convention,
except the final segment, which is converted to the declared-type casing
convention". -/
def buildExternRefClaimC3 (c : Casing) (rust_path : String) (rest : List String) : String :=
  joinSep "::"
    ([rust_path] ++ rest.dropLast.map c.toSnake ++ (rest.getLast?.map c.toUpperCamel).toList)

/-- A concrete casing instance agreeing with the values the repository's
own test `test_extern_paths` exhibits for the real conventions
(`to_snake "Fuzz" = "fuzz"`, `to_upper_camel "Bar" = "Bar"`). -/
def demoCasing : Casing :=
  ⟨fun s => if s = "Fuzz" then "fuzz" else s, fun s => s, fun _ v => v⟩

/-! ## Enum variant mapper — `build_enum_value_mappings`, `code_generator.rs` lines 823–863 -/

/-- `EnumValueDescriptorProto`, reduced to its accessor view: `name()` and
`number()`. -/
structure EnumValueDescriptorProto where
  name : String
  number : Int
  deriving DecidableEq

/-- `EnumVariantMapping` (`code_generator.rs` lines 816–821). -/
structure EnumVariantMapping where
  path_idx : Nat
  proto_name : String
  proto_number : Int
  generated_variant_name : String
  deriving DecidableEq

/-- The generated variant name of one enum value: `to_upper_camel`, then
the optional enum-name prefix strip (`code_generator.rs` lines 839–843). -/
def genVariantName (c : Casing) (generated_enum_name : String) (do_strip : Bool)
    (protoName : String) : String :=
  let g := c.toUpperCamel protoName
  if do_strip then c.stripEnumPrefixFn generated_enum_name g else g

/-- The loop of `build_enum_value_mappings` (`code_generator.rs` lines
832–861): `numbers` is the `HashSet` of integer values already seen (a
duplicate is skipped), `generated_names` the `HashMap` from generated
variant name to the proto name that produced it (an occupied entry is the
`panic!`), `acc` the mappings built so far. -/
def buildEnumGo (c : Casing) (generated_enum_name : String) (do_strip : Bool) :
    Nat → List EnumValueDescriptorProto → List Int → List (String × String) →
    List EnumVariantMapping → Except Panic (List EnumVariantMapping)
  | _, [], _, _, acc => .ok acc
  | idx, v :: rest, numbers, generated_names, acc =>
    if v.number ∈ numbers then
      buildEnumGo c generated_enum_name do_strip (idx + 1) rest numbers generated_names acc
    else
      let gname := genVariantName c generated_enum_name do_strip v.name
      match alookup generated_names gname with
      | some old_v => .error (.enumCollision gname old_v v.name)
      | none =>
        buildEnumGo c generated_enum_name do_strip (idx + 1) rest
          (numbers ++ [v.number]) (generated_names ++ [(gname, v.name)])
          (acc ++ [⟨idx, v.name, v.number, gname⟩])

/-- `build_enum_value_mappings` (`code_generator.rs` lines 823–863). -/
def build_enum_value_mappings (c : Casing) (generated_enum_name : String)
    (do_strip : Bool) (enum_values : List EnumValueDescriptorProto) :
    Except Panic (List EnumVariantMapping) :=
  buildEnumGo c generated_enum_name do_strip 0 enum_values [] [] []

/-- Spec §4.5 / §3 wording: "Reject a value if its integer has already been
seen (first occurrence is canonical; later aliases are silently dropped
from emission)" — the enum values surviving alias deduplication, each with
its position in the declaration. -/
def keptEnumValues (idx : Nat) (seen : List Int) :
    List EnumValueDescriptorProto → List (Nat × EnumValueDescriptorProto)
  | [] => []
  | v :: rest =>
    if v.number ∈ seen then keptEnumValues (idx + 1) seen rest
    else (idx, v) :: keptEnumValues (idx + 1) (seen ++ [v.number]) rest

/-- A concrete declared-type casing agreeing with the usual convention on
the three names of the spec's enum-deduplication scenario. -/
def enumDemoCasing : Casing :=
  ⟨fun s => s,
   fun s => if s = "FOO" then "Foo" else if s = "BAR" then "Bar"
            else if s = "BAZ" then "Baz" else s,
   fun _ v => v⟩

/-- A declared-type casing that collapses every name: a concrete way to
produce a collision. -/
def collapseCasing : Casing := ⟨fun s => s, fun _ => "X", fun _ v => v⟩

/-! ## Data model — the descriptor types of `prost_types` in accessor view -/

inductive Label where
  | optionalL
  | requiredL
  | repeatedL
  deriving DecidableEq

inductive FieldType where
  | double | float | int64 | uint64 | int32 | fixed64 | fixed32 | boolT
  | stringT | group | message | bytes | uint32 | enumT | sfixed32 | sfixed64
  | sint32 | sint64
  deriving DecidableEq

/-- `FieldDescriptorProto`: `name`/`label`/`type` in accessor view (the code
reads them through the defaulted accessors), `type_name`, `oneof_index` and
`proto3_optional` as the `Option`s the code inspects directly. -/
structure FieldDescriptorProto where
  name : String
  label : Label
  ftype : FieldType
  type_name : Option String
  oneof_index : Option Int
  proto3_optional : Option Bool
  deriving DecidableEq

/-- The `type_name()` accessor (empty string when unset). -/
def FieldDescriptorProto.typeNameStr (f : FieldDescriptorProto) : String :=
  f.type_name.getD ""

structure OneofDescriptorProto where
  name : String
  deriving DecidableEq

structure EnumDescriptorProto where
  name : String
  value : List EnumValueDescriptorProto
  deriving DecidableEq

/-- `DescriptorProto`: name, fields, nested messages, nested enums, oneof
declarations, and the `options.map_entry` marker
(`options.as_ref().and_then(|o| o.map_entry)`). -/
inductive DescriptorProto where
  | mk (name : String) (field : List FieldDescriptorProto)
      (nested_type : List DescriptorProto) (enum_type : List EnumDescriptorProto)
      (oneof_decl : List OneofDescriptorProto) (map_entry : Option Bool)

def DescriptorProto.name : DescriptorProto → String
  | .mk n _ _ _ _ _ => n

def DescriptorProto.fieldL : DescriptorProto → List FieldDescriptorProto
  | .mk _ f _ _ _ _ => f

def DescriptorProto.nested_type : DescriptorProto → List DescriptorProto
  | .mk _ _ nt _ _ _ => nt

def DescriptorProto.enum_type : DescriptorProto → List EnumDescriptorProto
  | .mk _ _ _ et _ _ => et

def DescriptorProto.oneof_decl : DescriptorProto → List OneofDescriptorProto
  | .mk _ _ _ _ od _ => od

def DescriptorProto.map_entry : DescriptorProto → Option Bool
  | .mk _ _ _ _ _ me => me

/-- `nested_type.options.and_then(|o| o.map_entry).unwrap_or(false)`. -/
def isMapEntry (d : DescriptorProto) : Bool :=
  d.map_entry.getD false

structure MethodDescriptorProto where
  name : Option String
  input_type : Option String
  output_type : Option String
  client_streaming : Option Bool
  server_streaming : Option Bool
  deriving DecidableEq

structure ServiceDescriptorProto where
  name : String
  method : List MethodDescriptorProto
  deriving DecidableEq

/-- `prost_types::source_code_info::Location`: its schema-tree path and its
comment payload. -/
structure Location where
  path : List Int
  leading_comments : Option String
  trailing_comments : Option String
  deriving DecidableEq

instance : Inhabited Location := ⟨⟨[], none, none⟩⟩

structure SourceCodeInfo where
  location : List Location
  deriving DecidableEq

structure FileDescriptorProto where
  name : Option String
  package : Option String
  message_type : List DescriptorProto
  enum_type : List EnumDescriptorProto
  service : List ServiceDescriptorProto
  source_code_info : Option SourceCodeInfo
  syntaxStr : Option String

/-- The two syntax levels the generator distinguishes. Modelled from the
spec — `code_generator/syntax.rs` is not in the snapshot; §4.7 calls
proto2 "the legacy syntax variant", the default when a file does not
declare "proto3". -/
inductive ProtoSyntax where
  | proto2
  | proto3
  deriving DecidableEq

def protoSyntaxOf (s : Option String) : ProtoSyntax :=
  if s = some "proto3" then .proto3 else .proto2

/-! ## Collections — `src/collections.rs` -/

inductive MapType where
  | hashMap
  | btreeMap
  deriving DecidableEq

/-- `MapType::rust_type` (`collections.rs` lines 23–31): BOTH variants
print `alloc::collections::BTreeMap` in this no_std fork. -/
def MapType.rust_type : MapType → String
  | .hashMap => "alloc::collections::BTreeMap"
  | .btreeMap => "alloc::collections::BTreeMap"

inductive BytesType where
  | vec
  | bytesB
  deriving DecidableEq

/-- `BytesType::rust_type` (`collections.rs` lines 33–41). -/
def BytesType.rust_type : BytesType → String
  | .vec => "alloc::vec::Vec<u8>"
  | .bytesB => "Bytes"

/-! ## Containment graph — modelled from the spec (`message_graph.rs` is
not among the repository's source files) -/

/-- Modelled from the spec: §4.3 — "for every message, for every
NON-repeated field whose type is a message reference (excluding map
key/value pseudo-fields), add edge (owning message → referenced message)".
`msgs` lists each (fully-qualified message name, its fields); map-entry
pseudo-messages are not in the list. -/
def containmentEdges (msgs : List (String × List FieldDescriptorProto)) :
    List (String × String) :=
  msgs.flatMap (fun m =>
    (m.2.filter (fun f => f.ftype = FieldType.message ∧ f.label ≠ Label.repeatedL)).map
      (fun f => (m.1, f.typeNameStr)))

/-- One breadth step of the reachable-set computation: add every edge
target whose source is already reached. -/
def reachStep (edges : List (String × String)) (s : List String) : List String :=
  s ++ (edges.filter (fun e => decide (e.1 ∈ s) && !(decide (e.2 ∈ s)))).map Prod.snd

def reachSet (edges : List (String × String)) : Nat → List String → List String
  | 0, s => s
  | n + 1, s => reachSet edges n (reachStep edges s)

/-- Modelled from the spec: §4.3 — `is_nested(type_name, ancestor)`
"answers whether `ancestor` is reachable from `type_name` via these edges
(including transitively through nested containment)". Reachability is
computed by saturating the reachable set (`edges.length` steps suffice:
every productive step adds a node) and is reflexive — the empty path
reaches the start node. -/
def is_nested (edges : List (String × String)) (inner ancestor : String) : Bool :=
  decide (ancestor ∈ reachSet edges edges.length [inner])

/-! ## The generation context — `src/context.rs`, with the override
lookups of the absent `path.rs` as abstract parameters -/

/-- The read-only context a `CodeGenerator` consults (`Context` in
`context.rs`: the `Config`, the message graph and the extern registry).
The `PathMap` selector lookups of `path.rs` (not in the snapshot) are
abstract functions here: `…First` models `get_first_field` (first matching
selector or none), the attribute lookups model the cumulative `get` /
`get_field` iterators, and the comment-disable lookups model
`should_disable_comments`' two `is_some()` probes. `renderComments`
models `Comments::from_location` followed by `append_with_indent`
(`ast.rs`, not in the snapshot): the text a location's comments append at
an indent depth. -/
structure Ctx where
  casing : Casing
  extern_paths : ExternPaths
  graph_edges : List (String × String)
  boxedFirst : String → String → Option Unit
  mapTypeFirst : String → String → Option MapType
  bytesTypeFirst : String → String → Option BytesType
  typeAttrs : String → List String
  messageAttrs : String → List String
  enumAttrs : String → List String
  fieldAttrs : String → String → List String
  disableCommentsType : String → Bool
  disableCommentsField : String → String → Bool
  strip_enum_flag : Bool
  renderComments : Location → Nat → String

/-- `Context::should_box_impl` (`context.rs` lines 134–165): a repeated
field is never boxed; a message/group-typed field whose type the message
graph says transitively contains the owner is boxed; otherwise the
explicit `boxed` override decides. -/
def should_box_impl (c : Ctx) (fq_message_name : String) (oneof : Option String)
    (field : FieldDescriptorProto) : Bool :=
  if field.label = Label.repeatedL then false
  else if (field.ftype = FieldType.message ∨ field.ftype = FieldType.group)
      ∧ is_nested c.graph_edges field.typeNameStr fq_message_name then true
  else
    let config_path :=
      match oneof with
      | none => fq_message_name
      | some oneof_name => fq_message_name ++ "." ++ oneof_name
    if (c.boxedFirst config_path field.name).isSome then true else false

/-- `Context::should_box_message_field` (`context.rs` lines 112–118). -/
def should_box_message_field (c : Ctx) (fq_message_name : String)
    (field : FieldDescriptorProto) : Bool :=
  should_box_impl c fq_message_name none field

/-- `Context::should_box_oneof_field` (`context.rs` lines 125–132). -/
def should_box_oneof_field (c : Ctx) (fq_message_name oneof_name : String)
    (field : FieldDescriptorProto) : Bool :=
  should_box_impl c fq_message_name (some oneof_name) field

/-- `Context::should_disable_comments` (`context.rs` lines 167–180). -/
def should_disable_comments (c : Ctx) (fq_message_name : String)
    (field_name : Option String) : Bool :=
  match field_name with
  | some f => c.disableCommentsField fq_message_name f
  | none => c.disableCommentsType fq_message_name

/-- `Context::map_type` (`context.rs` lines 98–105): first matching
override or the default (`MapType::HashMap`). -/
def ctxMapType (c : Ctx) (fq_message_name field_name : String) : MapType :=
  (c.mapTypeFirst fq_message_name field_name).getD .hashMap

/-- `Context::bytes_type` (`context.rs` lines 89–96). -/
def ctxBytesType (c : Ctx) (fq_message_name field_name : String) : BytesType :=
  (c.bytesTypeFirst fq_message_name field_name).getD .vec

/-! ## The documentation (source-location) index —
`CodeGenerator::generate` lines 86–93 and `CodeGenerator::location`
lines 485–492 of `code_generator.rs` -/

/-- `i32::cmp`. -/
def cmpInt (a b : Int) : Ordering :=
  if a < b then .lt else if a = b then .eq else .gt

/-- `Vec<i32>::cmp`: lexicographic, a strict prefix is less. -/
def cmpIntList : List Int → List Int → Ordering
  | [], [] => .eq
  | [], _ :: _ => .lt
  | _ :: _, [] => .gt
  | a :: as1, b :: bs1 =>
    match cmpInt a b with
    | .eq => cmpIntList as1 bs1
    | o => o

/-- The comparator `location.sort_by(|a, b| a.path.cmp(&b.path))` sorts
by: `a` not after `b`. -/
def locLE (a b : Location) : Prop := cmpIntList a.path b.path ≠ .gt

instance : DecidableRel locLE := fun a b => by
  unfold locLE
  infer_instance

/-- The filter and sort applied to a file's `source_code_info` at the top
of `CodeGenerator::generate`: keep only locations with a non-empty path of
even length, then stably sort by path (`sort_by` is a stable sort;
insertion sort is the stable sort of that comparator). -/
def processSourceInfo (s : SourceCodeInfo) : SourceCodeInfo :=
  ⟨(s.location.filter
      (fun l => decide (0 < l.path.length) && decide (l.path.length % 2 = 0))).insertionSort
    locLE⟩

/-- `slice::binary_search_by_key` over the location paths: `some idx` is
`Ok(idx)` (an index whose path equals the key), `none` is `Err(_)`. The
first argument counts the remaining loop iterations (each iteration
shrinks `hi - lo`, so any fuel with `hi - lo ≤ fuel` computes the
search exactly; `location` passes the list's length). -/
def bsAux (locs : List Location) (key : List Int) : Nat → Nat → Nat → Option Nat
  | 0, _, _ => none
  | fuel + 1, lo, hi =>
    if lo < hi then
      match cmpIntList (locs.getD ((lo + hi) / 2) default).path key with
      | .lt => bsAux locs key fuel ((lo + hi) / 2 + 1) hi
      | .gt => bsAux locs key fuel lo ((lo + hi) / 2)
      | .eq => some ((lo + hi) / 2)
    else none

/-- `CodeGenerator::location` (`code_generator.rs` lines 485–492): a file
with no source info yields no location (the `?`); with source info
present, the binary search's result is `unwrap`ped — a miss is a panic.
`source_info` is the already filtered-and-sorted index held by the
generator. -/
def location (source_info : Option SourceCodeInfo) (path : List Int) :
    Except Panic (Option Location) :=
  match source_info with
  | none => .ok none
  | some si =>
    match bsAux si.location path si.location.length 0 si.location.length with
    | some idx => .ok (some (si.location.getD idx default))
    | none => .error .missingLocation

/-! ## The emission cursor and buffer — `CodeGenerator`,
`code_generator.rs` lines 24–34 -/

/-- The per-file generator state: the current package, the open
nested-type path, the processed documentation index, the file's syntax
level, the indentation depth, the schema-tree path and the output
buffer. -/
structure GenState where
  package : String
  type_path : List String
  source_info : Option SourceCodeInfo
  syn : ProtoSyntax
  depth : Nat
  path : List Int
  buf : String
  deriving DecidableEq

def pushBuf (st : GenState) (s : String) : GenState :=
  { st with buf := st.buf ++ s }

/-- `push_indent` (`code_generator.rs` lines 36–40, 702–704): four spaces
per depth level. -/
def indentStr : Nat → String
  | 0 => ""
  | n + 1 => indentStr n ++ "    "

def pushIndent (st : GenState) : GenState :=
  pushBuf st (indentStr st.depth)

def pushPath (st : GenState) (i : Int) : GenState :=
  { st with path := st.path ++ [i] }

def popPath (st : GenState) : GenState :=
  { st with path := st.path.dropLast }

def incDepth (st : GenState) : GenState :=
  { st with depth := st.depth + 1 }

def decDepth (st : GenState) : GenState :=
  { st with depth := st.depth - 1 }

def pushTypePath (st : GenState) (m : String) : GenState :=
  { st with type_path := st.type_path ++ [m] }

def popTypePath (st : GenState) : GenState :=
  { st with type_path := st.type_path.dropLast }

/-- `push_mod` (`code_generator.rs` lines 706–720). -/
def push_mod (c : Ctx) (st : GenState) (module : String) : GenState :=
  let st := pushIndent st
  let st := pushBuf st ("/// Nested message and enum types in `" ++ module ++ "`.\n")
  let st := pushIndent st
  let st := pushBuf st ("pub mod " ++ c.casing.toSnake module ++ " \x7b\n")
  let st := pushTypePath st module
  incDepth st

/-- `pop_mod` (`code_generator.rs` lines 722–729): depth is decremented
before the closing brace is indented. -/
def pop_mod (st : GenState) : GenState :=
  let st := decDepth st
  let st := popTypePath st
  let st := pushIndent st
  pushBuf st "\x7d\n"

/-- `str::trim_matches('.')`. -/
def trimDots (s : String) : String :=
  String.mk (((s.data.dropWhile (fun ch => ch = '.')).reverse.dropWhile
    (fun ch => ch = '.')).reverse)

/-- `fq_name` (`code_generator.rs` lines 803–813): the fully-qualified
name of a declaration at the current package and nested-type path. -/
def fqName (st : GenState) (message_name : String) : String :=
  (if st.package.isEmpty then "" else ".")
    ++ trimDots st.package
    ++ (if st.type_path.isEmpty then "" else ".")
    ++ joinSep "." st.type_path
    ++ "." ++ message_name

/-- `pb_ident[1..]`. -/
def dropDot (s : String) : String :=
  match s.data with
  | _ :: rest => String.mk rest
  | [] => ""

/-- The longest-common-prefix elision of `resolve_ident`
(`code_generator.rs` lines 776–779): drop equal leading segments from
both paths. -/
def dropCommon : List String → List String → List String × List String
  | a :: as1, b :: bs1 =>
    if a = b then dropCommon as1 bs1 else (a :: as1, b :: bs1)
  | a, b => (a, b)

/-- `CodeGenerator::resolve_ident` (`code_generator.rs` lines 750–786):
extern registry first; otherwise relative-path computation from the
current package + type path, one `super` per remaining local segment. -/
def cgResolveIdent (c : Ctx) (st : GenState) (pb_ident : String) : Except Panic String :=
  if startsWithDot pb_ident then do
    let r ← ExternPaths.resolve_ident c.casing c.extern_paths pb_ident
    match r with
    | some proto_ident => .ok proto_ident
    | none =>
      let lp0 := splitChar '.' st.package ++ st.type_path
      let local_path :=
        match lp0 with
        | "" :: tl => tl
        | l => l
      let segs := splitChar '.' (dropDot pb_ident)
      match segs.getLast? with
      | none => .error .unwrapNone
      | some ident_type =>
        let (lp, ip) := dropCommon local_path segs.dropLast
        .ok (joinSep "::"
          (lp.map (fun _ => "super") ++ ip.map c.casing.toSnake
            ++ [c.casing.toUpperCamel ident_type]))
  else .error .assertFailed

/-- `resolve_type` (`code_generator.rs` lines 731–748). -/
def resolve_type (c : Ctx) (st : GenState) (field : FieldDescriptorProto)
    (fq_message_name : String) : Except Panic String :=
  match field.ftype with
  | .float => .ok "f32"
  | .double => .ok "f64"
  | .uint32 => .ok "u32"
  | .fixed32 => .ok "u32"
  | .uint64 => .ok "u64"
  | .fixed64 => .ok "u64"
  | .int32 => .ok "i32"
  | .sfixed32 => .ok "i32"
  | .sint32 => .ok "i32"
  | .enumT => .ok "i32"
  | .int64 => .ok "i64"
  | .sfixed64 => .ok "i64"
  | .sint64 => .ok "i64"
  | .boolT => .ok "bool"
  | .stringT => .ok "alloc::string::String"
  | .bytes => .ok (ctxBytesType c fq_message_name field.name).rust_type
  | .group => cgResolveIdent c st field.typeNameStr
  | .message => cgResolveIdent c st field.typeNameStr

/-- `optional` (`code_generator.rs` lines 788–801). -/
def isOptionalField (syn : ProtoSyntax) (field : FieldDescriptorProto) : Bool :=
  if field.proto3_optional.getD false then true
  else if field.label ≠ Label.optionalL then false
  else
    match field.ftype with
    | .message => true
    | _ => syn = ProtoSyntax.proto2

/-- `append_doc` (`code_generator.rs` lines 494–500): nothing if comments
are disabled for the target; otherwise look the current path up — a miss
with source info present is the `location()` panic — and append the
rendered comments. -/
def append_doc (c : Ctx) (fq_name : String) (field_name : Option String)
    (st : GenState) : Except Panic GenState :=
  if should_disable_comments c fq_name field_name then .ok st
  else
    match location st.source_info st.path with
    | .error e => .error e
    | .ok none => .ok st
    | .ok (some loc) => .ok (pushBuf st (c.renderComments loc st.depth))

def appendAttrsWith (attrs : List String) (st : GenState) : GenState :=
  attrs.foldl (fun s a => pushBuf s (indentStr s.depth ++ a ++ "\n")) st

/-- `append_type_attributes` (`code_generator.rs` lines 290–297); the
`assert_eq!(b'.', …)` is the panic case. -/
def append_type_attributes (c : Ctx) (fq_message_name : String) (st : GenState) :
    Except Panic GenState :=
  if startsWithDot fq_message_name then .ok (appendAttrsWith (c.typeAttrs fq_message_name) st)
  else .error .assertFailed

/-- `append_message_attributes` (`code_generator.rs` lines 299–306). -/
def append_message_attributes (c : Ctx) (fq_message_name : String) (st : GenState) :
    Except Panic GenState :=
  if startsWithDot fq_message_name then .ok (appendAttrsWith (c.messageAttrs fq_message_name) st)
  else .error .assertFailed

/-- `append_enum_attributes` (`code_generator.rs` lines 308–315). -/
def append_enum_attributes (c : Ctx) (fq_message_name : String) (st : GenState) :
    Except Panic GenState :=
  if startsWithDot fq_message_name then .ok (appendAttrsWith (c.enumAttrs fq_message_name) st)
  else .error .assertFailed

/-- `append_field_attributes` (`code_generator.rs` lines 317–324). -/
def append_field_attributes (c : Ctx) (fq_message_name field_name : String)
    (st : GenState) : Except Panic GenState :=
  if startsWithDot fq_message_name then
    .ok (appendAttrsWith (c.fieldAttrs fq_message_name field_name) st)
  else .error .assertFailed

/-- `Field` (`code_generator.rs` lines 42–58): a field descriptor with its
preserved declaration index. -/
structure CGField where
  descriptor : FieldDescriptorProto
  path_index : Int

/-- `OneofField` (`code_generator.rs` lines 60–78). -/
structure CGOneofField where
  descriptor : OneofDescriptorProto
  fields : List CGField
  path_index : Int

/-- `append_field` (`code_generator.rs` lines 326–365). -/
def append_field (c : Ctx) (fq_message_name : String) (f : CGField) (st : GenState) :
    Except Panic GenState := do
  let repeated := f.descriptor.label = Label.repeatedL
  let optional := isOptionalField st.syn f.descriptor
  let boxed := should_box_message_field c fq_message_name f.descriptor
  let ty ← resolve_type c st f.descriptor fq_message_name
  let st ← append_doc c fq_message_name (some f.descriptor.name) st
  let st ← append_field_attributes c fq_message_name f.descriptor.name st
  let st := pushIndent st
  let st := pushBuf st "pub "
  let st := pushBuf st (c.casing.toSnake f.descriptor.name)
  let st := pushBuf st ": "
  let st := if repeated then pushBuf st "alloc::vec::Vec<"
            else if optional then pushBuf st "Option<" else st
  let st := if boxed then pushBuf st "alloc::boxed::Box<" else st
  let st := pushBuf st ty
  let st := if boxed then pushBuf st ">" else st
  let st := if repeated ∨ optional then pushBuf st ">" else st
  .ok (pushBuf st ",\n")

/-- `append_map_field` (`code_generator.rs` lines 367–398). -/
def append_map_field (c : Ctx) (fq_message_name : String) (f : CGField)
    (key value : FieldDescriptorProto) (st : GenState) : Except Panic GenState := do
  let key_ty ← resolve_type c st key fq_message_name
  let value_ty ← resolve_type c st value fq_message_name
  let st ← append_doc c fq_message_name (some f.descriptor.name) st
  let map_type := ctxMapType c fq_message_name f.descriptor.name
  let st ← append_field_attributes c fq_message_name f.descriptor.name st
  let st := pushIndent st
  .ok (pushBuf st ("pub " ++ c.casing.toSnake f.descriptor.name ++ ": "
    ++ map_type.rust_type ++ "<" ++ key_ty ++ ", " ++ value_ty ++ ">,\n"))

/-- `append_oneof_field` (`code_generator.rs` lines 400–419). -/
def append_oneof_field (c : Ctx) (message_name fq_message_name : String)
    (oneof : CGOneofField) (st : GenState) : Except Panic GenState := do
  let type_name := c.casing.toSnake message_name ++ "::"
    ++ c.casing.toUpperCamel oneof.descriptor.name
  let st ← append_doc c fq_message_name none st
  let st := pushIndent st
  let st ← append_field_attributes c fq_message_name oneof.descriptor.name st
  .ok (pushBuf st ("pub " ++ c.casing.toSnake oneof.descriptor.name ++ ": Option<"
    ++ type_name ++ ">,\n"))

/-- The variant loop of `append_oneof` (`code_generator.rs` lines
441–477). -/
def appendOneofVariants (c : Ctx) (fq_message_name oneof_name oneof_decl_name : String) :
    List CGField → GenState → Except Panic GenState
  | [], st => .ok st
  | f :: rest, st => do
    let st := pushPath st f.path_index
    let st ← append_doc c fq_message_name (some f.descriptor.name) st
    let st := popPath st
    let st := pushIndent st
    let st ← append_field_attributes c oneof_name f.descriptor.name st
    let ty ← resolve_type c st f.descriptor fq_message_name
    let boxed := should_box_oneof_field c fq_message_name oneof_decl_name f.descriptor
    let st :=
      if boxed then
        pushBuf st (c.casing.toUpperCamel f.descriptor.name
          ++ "(alloc::boxed::Box<" ++ ty ++ ">),\n")
      else
        pushBuf st (c.casing.toUpperCamel f.descriptor.name ++ "(" ++ ty ++ "),\n")
    appendOneofVariants c fq_message_name oneof_name oneof_decl_name rest st

/-- `append_oneof` (`code_generator.rs` lines 421–483). -/
def append_oneof (c : Ctx) (fq_message_name : String) (oneof : CGOneofField)
    (st : GenState) : Except Panic GenState := do
  let st := pushPath st 8
  let st := pushPath st oneof.path_index
  let st ← append_doc c fq_message_name none st
  let st := popPath st
  let st := popPath st
  let oneof_name := fq_message_name ++ "." ++ oneof.descriptor.name
  let st ← append_type_attributes c oneof_name st
  let st ← append_enum_attributes c oneof_name st
  let st := pushIndent st
  let st := pushIndent st
  let st := pushBuf st "#[derive(Encode, Decode)]\n"
  let st := pushIndent st
  let st := pushBuf st ("pub enum " ++ c.casing.toUpperCamel oneof.descriptor.name ++ " \x7b\n")
  let st := pushPath st 2
  let st := incDepth st
  let st ← appendOneofVariants c fq_message_name oneof_name oneof.descriptor.name
    oneof.fields st
  let st := decDepth st
  let st := popPath st
  let st := pushIndent st
  .ok (pushBuf st "\x7d\n")

/-- The variant-declaration loop of `append_enum` (`code_generator.rs`
lines 535–547). -/
def appendEnumVariantDecls (c : Ctx) (fq_proto_enum_name : String) :
    List EnumVariantMapping → GenState → Except Panic GenState
  | [], st => .ok st
  | variant :: rest, st => do
    let st := pushPath st (Int.ofNat variant.path_idx)
    let st ← append_doc c fq_proto_enum_name (some variant.proto_name) st
    let st ← append_field_attributes c fq_proto_enum_name variant.proto_name st
    let st := pushIndent st
    let st := pushBuf st (variant.generated_variant_name ++ " = "
      ++ toString variant.proto_number ++ ",\n")
    let st := popPath st
    appendEnumVariantDecls c fq_proto_enum_name rest st

/-- The `as_str_name` match arms (`code_generator.rs` lines 585–592). -/
def appendAsStrArms : List EnumVariantMapping → GenState → GenState
  | [], st => st
  | variant :: rest, st =>
    let st := pushIndent st
    let st := pushBuf st ("Self::" ++ variant.generated_variant_name ++ " => \""
      ++ variant.proto_name ++ "\",\n")
    appendAsStrArms rest st

/-- The `from_str_name` match arms (`code_generator.rs` lines 615–622). -/
def appendFromStrArms : List EnumVariantMapping → GenState → GenState
  | [], st => st
  | variant :: rest, st =>
    let st := pushIndent st
    let st := pushBuf st ("\"" ++ variant.proto_name ++ "\" => Some(Self::"
      ++ variant.generated_variant_name ++ "),\n")
    appendFromStrArms rest st

/-- `append_enum` (`code_generator.rs` lines 502–638): skip an
extern-provided enum; otherwise emit the enum declaration from the
deduplicated variant mappings (whose construction can panic on a name
collision) and the two name/value lookup methods. -/
def append_enum (c : Ctx) (desc : EnumDescriptorProto) (st : GenState) :
    Except Panic GenState := do
  let proto_enum_name := desc.name
  let enum_name := c.casing.toUpperCamel proto_enum_name
  let enum_values := desc.value
  let fq_proto_enum_name := fqName st proto_enum_name
  let r ← ExternPaths.resolve_ident c.casing c.extern_paths fq_proto_enum_name
  if r.isSome then
    return st
  else
    let st ← append_doc c fq_proto_enum_name none st
    let st ← append_type_attributes c fq_proto_enum_name st
    let st ← append_enum_attributes c fq_proto_enum_name st
    let st := pushIndent st
    let st := pushBuf st "#[derive(Encode, Decode)]\n"
    let st := pushIndent st
    let st := pushBuf st ("pub enum " ++ enum_name ++ " \x7b\n")
    let variant_mappings ←
      build_enum_value_mappings c.casing enum_name c.strip_enum_flag enum_values
    let st := incDepth st
    let st := pushPath st 2
    let st ← appendEnumVariantDecls c fq_proto_enum_name variant_mappings st
    let st := popPath st
    let st := decDepth st
    let st := pushIndent st
    let st := pushBuf st "\x7d\n"
    let st := pushIndent st
    let st := pushBuf st ("impl " ++ enum_name ++ " \x7b\n")
    let st := incDepth st
    let st := pushPath st 2
    let st := pushIndent st
    let st := pushBuf st "/// String value of the enum field names used in the ProtoBuf definition.\n"
    let st := pushIndent st
    let st := pushBuf st "///\n"
    let st := pushIndent st
    let st := pushBuf st "/// The values are not transformed in any way and thus are considered stable\n"
    let st := pushIndent st
    let st := pushBuf st "/// (if the ProtoBuf definition does not change) and safe for programmatic use.\n"
    let st := pushIndent st
    let st := pushBuf st "pub fn as_str_name(&self) -> &'static str \x7b\n"
    let st := incDepth st
    let st := pushIndent st
    let st := pushBuf st "match self \x7b\n"
    let st := incDepth st
    let st := appendAsStrArms variant_mappings st
    let st := decDepth st
    let st := pushIndent st
    let st := pushBuf st "\x7d\n"
    let st := decDepth st
    let st := pushIndent st
    let st := pushBuf st "\x7d\n"
    let st := pushIndent st
    let st := pushBuf st "/// Creates an enum from field names used in the ProtoBuf definition.\n"
    let st := pushIndent st
    let st := pushBuf st "pub fn from_str_name(value: &str) -> Option<Self> \x7b\n"
    let st := incDepth st
    let st := pushIndent st
    let st := pushBuf st "match value \x7b\n"
    let st := incDepth st
    let st := appendFromStrArms variant_mappings st
    let st := pushIndent st
    let st := pushBuf st "_ => None,\n"
    let st := decDepth st
    let st := pushIndent st
    let st := pushBuf st "\x7d\n"
    let st := decDepth st
    let st := pushIndent st
    let st := pushBuf st "\x7d\n"
    let st := popPath st
    let st := decDepth st
    let st := pushIndent st
    .ok (pushBuf st "\x7d\n")

/-- The map-entry half of the `partition_map` over nested types
(`code_generator.rs` lines 164–190): the map from
`<fq message name>.<entry name>` to the entry's key/value field pair.
Indexing `field[0]`/`field[1]` on a malformed entry and the
`assert_eq!` on the two names are panics. -/
def collectMapTypes (fq_message_name : String) (nested : List DescriptorProto) :
    Except Panic (List (String × (FieldDescriptorProto × FieldDescriptorProto))) :=
  nested.foldlM
    (fun acc nt =>
      if isMapEntry nt then
        match nt.fieldL with
        | key :: value :: _ =>
          if key.name = "key" ∧ value.name = "value" then
            .ok (acc ++ [(fq_message_name ++ "." ++ nt.name, (key, value))])
          else .error .assertFailed
        | _ => .error .unwrapNone
      else .ok acc)
    []

/-- The `partition_map` over a message's fields (`code_generator.rs` lines
192–208): a proto3-optional field is a normal field (its synthetic oneof
is skipped), a field with an oneof index goes to the oneof side, the rest
are normal fields; declaration indices are preserved. -/
def partitionFieldsGo : Nat → List FieldDescriptorProto →
    List CGField × List (Int × CGField)
  | _, [] => ([], [])
  | idx, f :: rest =>
    let (a, b) := partitionFieldsGo (idx + 1) rest
    if f.proto3_optional.getD false then (⟨f, Int.ofNat idx⟩ :: a, b)
    else
      match f.oneof_index with
      | some oneof_index => (a, (oneof_index, ⟨f, Int.ofNat idx⟩) :: b)
      | none => (⟨f, Int.ofNat idx⟩ :: a, b)

/-- The oneof groups (`code_generator.rs` lines 210–220): each declared
oneof, with its member fields in declaration order (`MultiMap::remove`
yields them in insertion order); a oneof whose members were all unwrapped
(a synthetic proto3-optional oneof) is dropped by the `filter_map`. -/
def oneofFieldsFor (oneofs : List OneofDescriptorProto)
    (omap : List (Int × CGField)) : List CGOneofField :=
  oneofs.enum.filterMap (fun p =>
    let fs := (omap.filter (fun q => q.1 = Int.ofNat p.1)).map Prod.snd
    if fs.isEmpty then none
    else some ⟨p.2, fs, Int.ofNat p.1⟩)

/-- The normal-field loop of `append_message` (`code_generator.rs` lines
235–247): per field, push its declaration index, dispatch on whether its
type names a sibling map-entry type, pop. -/
def appendFieldsLoop (c : Ctx) (fq_message_name : String)
    (map_types : List (String × (FieldDescriptorProto × FieldDescriptorProto))) :
    List CGField → GenState → Except Panic GenState
  | [], st => .ok st
  | f :: rest, st => do
    let st := pushPath st f.path_index
    let st ←
      match f.descriptor.type_name.bind (fun tn => alookup map_types tn) with
      | some kv => append_map_field c fq_message_name f kv.1 kv.2 st
      | none => append_field c fq_message_name f st
    let st := popPath st
    appendFieldsLoop c fq_message_name map_types rest st

/-- The oneof-field loop of `append_message` (`code_generator.rs` lines
250–256). -/
def appendOneofFieldsLoop (c : Ctx) (message_name fq_message_name : String) :
    List CGOneofField → GenState → Except Panic GenState
  | [], st => .ok st
  | o :: rest, st => do
    let st := pushPath st o.path_index
    let st ← append_oneof_field c message_name fq_message_name o st
    let st := popPath st
    appendOneofFieldsLoop c message_name fq_message_name rest st

/-- The struct-declaration part of `append_message` (`code_generator.rs`
lines 222–260): doc, attributes, the struct header, the two field loops
and the closing brace. -/
def appendMessageStruct (c : Ctx) (message_name fq_message_name : String)
    (map_types : List (String × (FieldDescriptorProto × FieldDescriptorProto)))
    (fields : List CGField) (oneof_fields : List CGOneofField) (st : GenState) :
    Except Panic GenState := do
  let st ← append_doc c fq_message_name none st
  let st ← append_type_attributes c fq_message_name st
  let st ← append_message_attributes c fq_message_name st
  let st := pushIndent st
  let st := pushBuf st "#[derive(Encode, Decode)]\n"
  let st := pushIndent st
  let st := pushBuf st ("pub struct " ++ c.casing.toUpperCamel message_name ++ " \x7b\n")
  let st := incDepth st
  let st := pushPath st 2
  let st ← appendFieldsLoop c fq_message_name map_types fields st
  let st := popPath st
  let st := pushPath st 8
  let st ← appendOneofFieldsLoop c message_name fq_message_name oneof_fields st
  let st := popPath st
  let st := decDepth st
  let st := pushIndent st
  .ok (pushBuf st "\x7d\n")

/-- The nested-enum loop of `append_message` (`code_generator.rs` lines
274–280). -/
def appendEnumLoop (c : Ctx) : List EnumDescriptorProto → Nat → GenState →
    Except Panic GenState
  | [], _, st => .ok st
  | e :: rest, idx, st => do
    let st := pushPath st (Int.ofNat idx)
    let st ← append_enum c e st
    let st := popPath st
    appendEnumLoop c rest (idx + 1) st

/-- The oneof-declaration loop of `append_message` (`code_generator.rs`
lines 282–284). -/
def appendOneofDeclLoop (c : Ctx) (fq_message_name : String) :
    List CGOneofField → GenState → Except Panic GenState
  | [], st => .ok st
  | o :: rest, st => do
    let st ← append_oneof c fq_message_name o st
    appendOneofDeclLoop c fq_message_name rest st

mutual

/-- `append_message` (`code_generator.rs` lines 149–288): skip an
extern-provided message; otherwise split nested types into map-entry
pseudo-types and real nested types, split fields into normal and oneof
members, emit the struct, and — when there are nested declarations —
open the nested module, recurse, and close it. -/
def append_message (c : Ctx) (msg : DescriptorProto) (st : GenState) :
    Except Panic GenState :=
  match msg with
  | .mk message_name fieldL nestedL enumL oneofL _ => do
    let fq_message_name := fqName st message_name
    let r ← ExternPaths.resolve_ident c.casing c.extern_paths fq_message_name
    if r.isSome then
      return st
    else
      let map_types ← collectMapTypes fq_message_name nestedL
      let fo := partitionFieldsGo 0 fieldL
      let oneof_fields := oneofFieldsFor oneofL fo.2
      let st ← appendMessageStruct c message_name fq_message_name map_types fo.1
        oneof_fields st
      if enumL.isEmpty ∧ (nestedL.filter (fun nt => !isMapEntry nt)).isEmpty
          ∧ oneof_fields.isEmpty then
        .ok st
      else do
        let st := push_mod c st message_name
        let st := pushPath st 3
        let st := pushIndent st
        let st := pushBuf st "use super::*;\n\n"
        let st ← appendNestedLoop c nestedL 0 st
        let st := popPath st
        let st := pushPath st 4
        let st ← appendEnumLoop c enumL 0 st
        let st := popPath st
        let st ← appendOneofDeclLoop c fq_message_name oneof_fields st
        .ok (pop_mod st)

/-- The nested-message loop of `append_message` (`code_generator.rs`
lines 267–272): the non-map-entry nested types in order, each with its
original declaration index (`partition_map` preserves both, so iterating
the original list and skipping map entries is the same walk). -/
def appendNestedLoop (c : Ctx) (l : List DescriptorProto) (idx : Nat) (st : GenState) :
    Except Panic GenState :=
  match l with
  | [] => .ok st
  | nt :: rest =>
    if isMapEntry nt then appendNestedLoop c rest (idx + 1) st
    else do
      let st := pushPath st (Int.ofNat idx)
      let st ← append_message c nt st
      let st := popPath st
      appendNestedLoop c rest (idx + 1) st

end

/-! ## Services and the orchestrator — `push_service`, `generate`
(`code_generator.rs`), `Config::generate` (`config.rs`) -/

/-- `crate::ast::Method` — `ast.rs` is not in the snapshot; the fields are
the ones `push_service` fills (`code_generator.rs` lines 672–683), with
`Comments` modelled as the optional source `Location` it was built
from. -/
structure Method where
  name : String
  proto_name : String
  comments : Option Location
  input_type : String
  output_type : String
  input_proto_type : String
  output_proto_type : String
  client_streaming : Bool
  server_streaming : Bool
  deriving DecidableEq

/-- `crate::ast::Service` — the name/package/comments/methods bundle
handed to the service generator (`code_generator.rs` lines 688–695). -/
structure Service where
  name : String
  proto_name : String
  package : String
  comments : Option Location
  methods : List Method
  deriving DecidableEq

/-- The `ServiceGenerator` capability (`lib.rs` lines 25–54), as a pure
state machine over a private state `σ`: each callback consumes its state
and the buffer and returns both. -/
structure ServiceGen (σ : Type) where
  generate : σ → Service → String → σ × String
  finalize : σ → String → σ × String
  finalize_package : σ → String → String → σ × String

/-- The method loop of `push_service` (`code_generator.rs` lines
650–685): per method, look up the method's comments at its path, take the
three names (a missing one is an `unwrap` panic), resolve the input and
output idents. -/
def pushServiceMethods (c : Ctx) : List MethodDescriptorProto → Nat → GenState →
    List Method → Except Panic (GenState × List Method)
  | [], _, st, acc => .ok (st, acc)
  | m :: rest, idx, st, acc => do
    let st := pushPath st (Int.ofNat idx)
    let comments ← location st.source_info st.path
    let st := popPath st
    match m.name, m.input_type, m.output_type with
    | some name, some input_proto_type, some output_proto_type => do
      let input_type ← cgResolveIdent c st input_proto_type
      let output_type ← cgResolveIdent c st output_proto_type
      let meth : Method :=
        { name := c.casing.toSnake name
          proto_name := name
          comments
          input_type, output_type, input_proto_type, output_proto_type
          client_streaming := m.client_streaming.getD false
          server_streaming := m.server_streaming.getD false }
      pushServiceMethods c rest (idx + 1) st (acc ++ [meth])
    | _, _, _ => .error .unwrapNone

/-- `push_service` (`code_generator.rs` lines 640–700). -/
def push_service {σ : Type} (c : Ctx) (g : ServiceGen σ) (svc : ServiceDescriptorProto)
    (st : GenState) (gs : σ) : Except Panic (GenState × σ) := do
  let name := svc.name
  let comments ← location st.source_info st.path
  let st := pushPath st 2
  let (st, methods) ← pushServiceMethods c svc.method 0 st []
  let st := popPath st
  let service : Service :=
    { name := c.casing.toUpperCamel name
      proto_name := name
      package := st.package
      comments
      methods }
  let (gs2, buf2) := g.generate gs service st.buf
  .ok ({ st with buf := buf2 }, gs2)

/-- The top-level message loop of `generate` (`code_generator.rs` lines
117–123). -/
def appendTopMessages (c : Ctx) : List DescriptorProto → Nat → GenState →
    Except Panic GenState
  | [], _, st => .ok st
  | m :: rest, idx, st => do
    let st := pushPath st (Int.ofNat idx)
    let st ← append_message c m st
    let st := popPath st
    appendTopMessages c rest (idx + 1) st

/-- The top-level enum loop of `generate` (`code_generator.rs` lines
125–131). -/
def appendTopEnums (c : Ctx) : List EnumDescriptorProto → Nat → GenState →
    Except Panic GenState
  | [], _, st => .ok st
  | e :: rest, idx, st => do
    let st := pushPath st (Int.ofNat idx)
    let st ← append_enum c e st
    let st := popPath st
    appendTopEnums c rest (idx + 1) st

/-- The service loop of `generate` (`code_generator.rs` lines 134–139). -/
def pushServicesLoop {σ : Type} (c : Ctx) (g : ServiceGen σ) :
    List ServiceDescriptorProto → Nat → GenState → σ → Except Panic (GenState × σ)
  | [], _, st, gs => .ok (st, gs)
  | svc :: rest, idx, st, gs => do
    let st := pushPath st (Int.ofNat idx)
    let (st, gs) ← push_service c g svc st gs
    let st := popPath st
    pushServicesLoop c g rest (idx + 1) st gs

/-- `CodeGenerator::generate` (`code_generator.rs` lines 85–147): filter
and sort the file's source info, emit the preamble, walk messages and
enums, and — when a service generator is configured — walk services and
call its per-file `finalize`. Returns the filled buffer and the service
generator's state. -/
def codegenGenerate {σ : Type} (c : Ctx) (sg : Option (ServiceGen σ))
    (file : FileDescriptorProto) (buf : String) (gs : σ) :
    Except Panic (String × σ) := do
  let source_info := file.source_code_info.map processSourceInfo
  let st : GenState :=
    { package := file.package.getD ""
      type_path := []
      source_info
      syn := protoSyntaxOf file.syntaxStr
      depth := 0
      path := []
      buf }
  let st := pushBuf st "extern crate alloc;\n"
  let st := pushIndent st
  let st := pushBuf st "use parity_scale_codec::\x7bEncode, Decode\x7d;\n\n"
  let st := pushPath st 4
  let st ← appendTopMessages c file.message_type 0 st
  let st := popPath st
  let st := pushPath st 5
  let st ← appendTopEnums c file.enum_type 0 st
  let st := popPath st
  match sg with
  | none => .ok (st.buf, gs)
  | some g => do
    let st := pushPath st 6
    let (st, gs) ← pushServicesLoop c g file.service 0 st gs
    let r := g.finalize gs st.buf
    let st := popPath { st with buf := r.2 }
    .ok (st.buf, r.1)

/-! ## `Config::generate` — `config.rs` lines 816–862 -/

/-- Modelled from the spec (`module.rs` is not in the snapshot): "for each
target module (derived from package name)" — the module of a package is
its list of `'.'`-separated parts, empty for the empty package. -/
structure Module where
  parts : List String
  deriving DecidableEq

def Module.fromPackage (p : String) : Module :=
  ⟨if p.isEmpty then [] else splitChar '.' p⟩

/-- The observable events of one `Config::generate` run: a file's walk
completed; a package's `finalize_package` callback ran. -/
inductive GenEvent where
  | fileProcessed (m : Module) : GenEvent
  | packageFinalized (package : String) : GenEvent
  deriving DecidableEq

/-- In-place update of a `HashMap` modelled as an association list with
distinct keys: replace the value of an existing key, or append a new
entry (`entry(..).or_insert_with(..)` followed by mutation, and plain
`insert`, both update this way). -/
def mupdate {ν : Type} : List (Module × ν) → Module → ν → List (Module × ν)
  | [], k, v => [(k, v)]
  | (a, b) :: rest, k, v =>
    if a = k then (k, v) :: rest else (a, b) :: mupdate rest k v

/-- `HashMap::remove`. -/
def mremove {ν : Type} : List (Module × ν) → Module → List (Module × ν)
  | [], _ => []
  | (a, b) :: rest, k => if a = k then rest else (a, b) :: mremove rest k

/-- The `packages` map `Config::generate` builds (`config.rs` lines
829–832): for each request whose file declares services, the request's
module mapped to the file's package name; later files with the same
module overwrite. (In the source the map is filled inside the file loop;
it is only read after the loop, so building it first is the same.) -/
def packagesOf (requests : List (Module × FileDescriptorProto)) :
    List (Module × String) :=
  requests.foldl
    (fun acc r =>
      if r.2.service.isEmpty then acc
      else mupdate acc r.1 (r.2.package.getD ""))
    []

/-- `add_generated_modules` (`config.rs` lines 864–869). -/
def addGenerated (modules : List (Module × String)) : List (Module × String) :=
  modules.map (fun p => (p.1, "// This file is @generated by ppsc-build.\n" ++ p.2))

/-- The per-package finalization loop of `Config::generate` (`config.rs`
lines 843–848), iterating the `packages` hash map in the order
`finalizeOrder` (std `HashMap` iteration order is unspecified; the
parameter makes it explicit — a run of the Rust code iterates SOME
permutation of the map's entries). `modules.get_mut(&module).unwrap()` on
an absent module is a panic. -/
def finalizePackagesLoop {σ : Type} (g : ServiceGen σ) :
    List (Module × String) → List (Module × String) → List GenEvent → σ →
    Except Panic (List (Module × String) × List GenEvent × σ)
  | [], modules, events, gs => .ok (modules, events, gs)
  | (m, pkg) :: rest, modules, events, gs =>
    match alookup modules m with
    | none => .error .unwrapNone
    | some buf =>
      let r := g.finalize_package gs pkg buf
      finalizePackagesLoop g rest (mupdate modules m r.2)
        (events ++ [GenEvent.packageFinalized pkg]) r.1

/-- The file loop of `Config::generate` (`config.rs` lines 828–841): per
request, fetch (or create empty) the module's buffer, run the per-file
generator on it, store the result back, and drop the module if the
buffer stayed empty. -/
def generateFilesLoop {σ : Type} (c : Ctx) (sg : Option (ServiceGen σ)) :
    List (Module × FileDescriptorProto) → List (Module × String) → List GenEvent → σ →
    Except Panic (List (Module × String) × List GenEvent × σ)
  | [], modules, events, gs => .ok (modules, events, gs)
  | (reqM, reqFd) :: rest, modules, events, gs => do
    let buf := (alookup modules reqM).getD ""
    let r ← codegenGenerate c sg reqFd buf gs
    let modules := mupdate modules reqM r.1
    let modules := if r.1.isEmpty then mremove modules reqM else modules
    generateFilesLoop c sg rest modules (events ++ [GenEvent.fileProcessed reqM]) r.2

/-- `Config::generate` (`config.rs` lines 816–862) with the extern-path
registry already validated into `c` (`ExternPaths::new` failures are the
separate `Config`-level error path, `ExternPaths.new` here): walk every
request in order, then — when a service generator is configured — run
`finalize_package` once per entry of the `packages` map, in the map's
iteration order `finalizeOrder`, and finally prepend the generated-file
header to every module. The event trace records the order of file walks
and package finalizations. -/
def configGenerate {σ : Type} (c : Ctx) (sg : Option (ServiceGen σ)) (gsInit : σ)
    (requests : List (Module × FileDescriptorProto))
    (finalizeOrder : List (Module × String)) :
    Except Panic (List (Module × String) × List GenEvent × σ) := do
  let r ← generateFilesLoop c sg requests [] [] gsInit
  let (modules, events, gs) := r
  match sg with
  | none => .ok (addGenerated modules, events, gs)
  | some g => do
    let r2 ← finalizePackagesLoop g finalizeOrder modules events gs
    .ok (addGenerated r2.1, r2.2.1, r2.2.2)

/-- A context with no overrides, no externs, no graph edges and identity
casing: the baseline concrete instantiation used by witnesses. -/
def trivialCtx : Ctx :=
  { casing := idCasing
    extern_paths := []
    graph_edges := []
    boxedFirst := fun _ _ => none
    mapTypeFirst := fun _ _ => none
    bytesTypeFirst := fun _ _ => none
    typeAttrs := fun _ => []
    messageAttrs := fun _ => []
    enumAttrs := fun _ => []
    fieldAttrs := fun _ _ => []
    disableCommentsType := fun _ => false
    disableCommentsField := fun _ _ => false
    strip_enum_flag := true
    renderComments := fun _ _ => "" }

/-- A singular (proto-optional-label) message field of type `.A`. -/
def selfField : FieldDescriptorProto :=
  ⟨"a", .optionalL, .message, some ".A", none, none⟩

/-- A repeated message field of type `.A`. -/
def selfFieldRep : FieldDescriptorProto :=
  ⟨"a", .repeatedL, .message, some ".A", none, none⟩

/-- A file whose source info has locations, none of them for the first
message's path `[4, 0]`. -/
def fileMissingLoc : FileDescriptorProto :=
  { name := none
    package := none
    message_type := [.mk "M" [] [] [] [] none]
    enum_type := []
    service := []
    source_code_info := some ⟨[⟨[5, 0], some " c", none⟩]⟩
    syntaxStr := none }

/-- Everything of the generator state except the output buffer: the
emission cursor (type path, schema path, depth) together with the
immutable per-file data. -/
structure Cursor where
  package : String
  type_path : List String
  source_info : Option SourceCodeInfo
  syn : ProtoSyntax
  depth : Nat
  path : List Int
  deriving DecidableEq

def GenState.core (st : GenState) : Cursor :=
  ⟨st.package, st.type_path, st.source_info, st.syn, st.depth, st.path⟩

/-- The entry state for the cursor-restoration check: empty package, no
source info, top level. -/
def st0C10 : GenState := ⟨"", [], none, .proto3, 0, [], ""⟩

/-- A message with no fields, nested types, enums or oneofs. -/
def msg0C10 : DescriptorProto := .mk "M" [] [] [] [] none

/-- An enum with no values. -/
def e0C10 : EnumDescriptorProto := ⟨"E", []⟩

def msgOutC10 : GenState :=
  { st0C10 with buf := "#[derive(Encode, Decode)]\npub struct M \x7b\n\x7d\n" }

def enumOutC10 : GenState :=
  { st0C10 with buf := "#[derive(Encode, Decode)]\npub enum E \x7b\n\x7d\nimpl E \x7b\n    /// String value of the enum field names used in the ProtoBuf definition.\n    ///\n    /// The values are not transformed in any way and thus are considered stable\n    /// (if the ProtoBuf definition does not change) and safe for programmatic use.\n    pub fn as_str_name(&self) -> &\'static str \x7b\n        match self \x7b\n        \x7d\n    \x7d\n    /// Creates an enum from field names used in the ProtoBuf definition.\n    pub fn from_str_name(value: &str) -> Option<Self> \x7b\n        match value \x7b\n            _ => None,\n        \x7d\n    \x7d\n\x7d\n" }

/-- One step of the `packages`-map fill (`config.rs` lines 829–832). -/
def pkStep (acc : List (Module × String)) (r : Module × FileDescriptorProto) :
    List (Module × String) :=
  if r.2.service.isEmpty then acc else mupdate acc r.1 (r.2.package.getD "")

/-- A service generator whose per-package finalization output depends on
how many callbacks ran before it (a counter threaded through the state),
the way a stateful `ServiceGenerator` implementation may. -/
def sgC89 : ServiceGen Nat :=
  { generate := fun s _ buf => (s + 1, buf)
    finalize := fun s buf => (s, buf)
    finalize_package := fun s pkg buf =>
      (s + 1, buf ++ "// finalized " ++ pkg ++ " at " ++ toString s ++ "\n") }

/-- A file of package `pa` declaring one service and nothing else. -/
def fileA : FileDescriptorProto :=
  ⟨some "a.proto", some "pa", [], [], [⟨"SvcA", []⟩], none, none⟩

/-- A file of package `pb` declaring one service and nothing else. -/
def fileB : FileDescriptorProto :=
  ⟨some "b.proto", some "pb", [], [], [⟨"SvcB", []⟩], none, none⟩

def reqC89 : List (Module × FileDescriptorProto) :=
  [(Module.fromPackage "pa", fileA), (Module.fromPackage "pb", fileB)]

def orderC89 : List (Module × String) := packagesOf reqC89

def orderC89rev : List (Module × String) := (packagesOf reqC89).reverse

def preambleC89 : String :=
  "// This file is @generated by ppsc-build.\nextern crate alloc;\nuse parity_scale_codec::\x7bEncode, Decode\x7d;\n\n"

def modulesC8 : List (Module × String) :=
  [(Module.fromPackage "pa", preambleC89 ++ "// finalized pa at 2\n"),
   (Module.fromPackage "pb", preambleC89 ++ "// finalized pb at 3\n")]

def eventsC8 : List GenEvent :=
  [GenEvent.fileProcessed (Module.fromPackage "pa"),
   GenEvent.fileProcessed (Module.fromPackage "pb"),
   GenEvent.packageFinalized "pa",
   GenEvent.packageFinalized "pb"]

lemma splitColonsAux_ne_nil : ∀ (l acc : List Char), splitColonsAux l acc ≠ [] := by
  intro l acc
  induction l, acc using splitColonsAux.induct with
  | case1 acc => simp [splitColonsAux]
  | case2 rest acc ih => simp [splitColonsAux]
  | case3 c rest acc h ih =>
    unfold splitColonsAux
    split
    · simp
    · simp
    · rename_i heq
      injection heq with h1 h2
      subst h1
      subst h2
      exact ih

lemma splitColons_ne_nil (s : String) : splitColons s ≠ [] :=
  splitColonsAux_ne_nil s.data []

lemma enumFrom_cons_eq {α : Type} (n : Nat) (a : α) (l : List α) :
    List.enumFrom n (a :: l) = (n, a) :: List.enumFrom (n + 1) l := rfl

/-- Past index 0, the crate check of `ExternPaths::resolve_ident` never
fires: mapping over an enumeration that starts at 1 is a plain
snake-casing map. -/
lemma map_crateCheck_enumFrom (c : Casing) :
    ∀ (l : List String) (n : Nat),
      (List.enumFrom (n + 1) l).map
          (fun p => if p.1 = 0 ∧ p.2 = "crate" then p.2 else c.toSnake p.2)
        = l.map c.toSnake := by
  intro l
  induction l with
  | nil => intro n; rfl
  | cons a t ih =>
    intro n
    rw [enumFrom_cons_eq, List.map_cons, List.map_cons, ih (n + 1)]
    simp

lemma buildExternRef_eq_decl (c : Casing) (rust_path : String) (rest : List String) :
    buildExternRef c rust_path rest = buildExternRefDecl c rust_path rest := by
  unfold buildExternRef buildExternRefDecl
  obtain ⟨s, tl, hsplit⟩ : ∃ s tl, splitColons rust_path = s :: tl := by
    cases h : splitColons rust_path with
    | nil => exact absurd h (splitColons_ne_nil rust_path)
    | cons s tl => exact ⟨s, tl, rfl⟩
  rw [hsplit]
  show joinSep "::"
      ((List.enum (s :: (tl ++ rest.dropLast))).map _ ++ _) = _
  rw [show List.enum (s :: (tl ++ rest.dropLast))
        = (0, s) :: List.enumFrom 1 (tl ++ rest.dropLast) from rfl]
  rw [List.map_cons, map_crateCheck_enumFrom c (tl ++ rest.dropLast) 0]
  simp [List.map_append, List.append_assoc]

/-- If the `k`-segment prefix is registered and no longer prefix up to `K`
segments is, the longest-to-shortest scan stops exactly at `k`. -/
lemma externScan_eq_some (c : Casing) (m : ExternPaths) (segs : List String)
    (k : Nat) (rp : String) (hk : 1 ≤ k)
    (hhit : alookup m (joinSep "." (segs.take k)) = some rp) :
    ∀ K, k ≤ K →
      (∀ j, k < j → j ≤ K → alookup m (joinSep "." (segs.take j)) = none) →
      externScan c m segs K = some (buildExternRef c rp (segs.drop k)) := by
  intro K
  induction K with
  | zero => intro hK _; omega
  | succ n ih =>
    intro hK habove
    by_cases hkn : k = n + 1
    · subst hkn
      unfold externScan
      rw [hhit]
    · have hk_le : k ≤ n := by omega
      have hnone : alookup m (joinSep "." (segs.take (n + 1))) = none :=
        habove (n + 1) (by omega) (le_refl _)
      unfold externScan
      rw [hnone]
      exact ih hk_le (fun j h1 h2 => habove j h1 (by omega))

/-- If no prefix of 1 … K segments is registered the scan misses. -/
lemma externScan_eq_none (c : Casing) (m : ExternPaths) (segs : List String) :
    ∀ K, (∀ j, 1 ≤ j → j ≤ K → alookup m (joinSep "." (segs.take j)) = none) →
      externScan c m segs K = none := by
  intro K
  induction K with
  | zero => intro _; rfl
  | succ n ih =>
    intro hnone
    unfold externScan
    rw [hnone (n + 1) (by omega) (le_refl _)]
    exact ih (fun j h1 h2 => hnone j h1 (by omega))

lemma splitCharAux_ne_nil (sep : Char) : ∀ (l acc : List Char), splitCharAux sep l acc ≠ [] := by
  intro l
  induction l with
  | nil => intro acc; simp [splitCharAux]
  | cons c rest ih =>
    intro acc
    unfold splitCharAux
    split
    · simp
    · exact ih _

lemma splitChar_of_dot (pb : String) (h : startsWithDot pb = true) :
    ∃ tl, splitChar '.' pb = "" :: tl ∧ tl ≠ [] := by
  unfold startsWithDot at h
  obtain ⟨cs, hcs⟩ : ∃ cs, pb.data = '.' :: cs := by
    cases hd : pb.data with
    | nil => rw [hd] at h; simp at h
    | cons c rest =>
      rw [hd] at h
      by_cases hc : c = '.'
      · exact ⟨rest, by rw [hc]⟩
      · exfalso
        cases c with
        | mk v p =>
          revert h
          split
          · rename_i heq
            intro _
            injection heq with e1 e2
            exact hc (by rw [e1])
          · intro h; exact Bool.noConfusion h
  refine ⟨splitCharAux '.' cs [], ?_, splitCharAux_ne_nil '.' cs []⟩
  unfold splitChar
  rw [hcs]
  unfold splitCharAux
  simp
  rw [splitCharAux.eq_def]

theorem resolve_ident_eq_decl (c : Casing) (m : ExternPaths) (pb : String) :
    ExternPaths.resolve_ident c m pb = resolveIdentDecl c m pb := by
  unfold ExternPaths.resolve_ident resolveIdentDecl
  cases hdot : startsWithDot pb with
  | false => simp
  | true =>
    simp only [if_true]
    cases hex : alookup m pb with
    | some t => rfl
    | none =>
      obtain ⟨tl, hsegs, htl⟩ := splitChar_of_dot pb hdot
      simp only []
      set segs := splitChar '.' pb with hsegsdef
      set n := segs.length - 1 with hn
      set P : Nat → Prop :=
        fun j => (alookup m (joinSep "." (segs.take j))).isSome = true ∧ 1 ≤ j with hP
      have hkdef : externPfxLen m segs = Nat.findGreatest P n := rfl
      by_cases hk0 : Nat.findGreatest P n = 0
      · have hnone : ∀ j, 1 ≤ j → j ≤ n → alookup m (joinSep "." (segs.take j)) = none := by
          intro j h1 h2
          have hnp : ¬ P j := Nat.findGreatest_is_greatest (by omega) h2
          exact Option.not_isSome_iff_eq_none.mp (fun hs => hnp ⟨hs, h1⟩)
        rw [externScan_eq_none c m segs n hnone, hkdef, hk0]
        simp
      · have hPk : P (Nat.findGreatest P n) := Nat.findGreatest_of_ne_zero rfl hk0
        have hk1 : 1 ≤ Nat.findGreatest P n := hPk.2
        have hkn : Nat.findGreatest P n ≤ n := Nat.findGreatest_le n
        obtain ⟨rp, hrp⟩ := Option.isSome_iff_exists.mp hPk.1
        have habove : ∀ j, Nat.findGreatest P n < j → j ≤ n →
            alookup m (joinSep "." (segs.take j)) = none := by
          intro j h1 h2
          have hnp : ¬ P j := Nat.findGreatest_is_greatest h1 h2
          exact Option.not_isSome_iff_eq_none.mp
            (fun hs => hnp ⟨hs, by omega⟩)
        rw [externScan_eq_some c m segs (Nat.findGreatest P n) rp hk1 hrp n hkn habove]
        rw [hkdef]
        rw [if_neg hk0, hrp, buildExternRef_eq_decl]

/-- C3, counterexample: with `.foo.Fuzz` registered to `::foo4::Fuzz`, the
code resolves `.foo.Fuzz.Bar` to `::foo4::fuzz::Bar` (this is the
repository's own test expectation, `extern_paths.rs` line 116): the
registered target path is NOT passed through unmodified — its own
segments are namespace-cased too — so the reference the claim prescribes,
`::foo4::Fuzz::Bar`, is not what resolution returns. -/
theorem extern_target_unmodified_refuted :
    ExternPaths.resolve_ident demoCasing [(".foo.Fuzz", "::foo4::Fuzz")] ".foo.Fuzz.Bar"
      = .ok (some "::foo4::fuzz::Bar")
    ∧ buildExternRefClaimC3 demoCasing "::foo4::Fuzz" ["Bar"] = "::foo4::Fuzz::Bar"
    ∧ ("::foo4::fuzz::Bar" : String) ≠ "::foo4::Fuzz::Bar" := by
  refine ⟨rfl, rfl, ?_⟩
  decide

/-- C3 (amended): on a prefix hit, `resolve_ident` returns the registered
target path with each of its own `::`-segments converted to the namespace
casing convention — except a leading segment that is the literal
self-referential root keyword `crate`, which is passed through unescaped —
followed by each remaining schema segment namespace-cased and the final
segment declared-type-cased; exact matches are returned unmodified and the
longest registered prefix wins (`resolveIdentDecl` states exactly this
reading, `buildExternRefDecl` the amended concatenation). -/
theorem extern_prefix_hit_reference_amended (c : Casing) (m : ExternPaths) (pb : String) :
    ExternPaths.resolve_ident c m pb = resolveIdentDecl c m pb :=
  resolve_ident_eq_decl c m pb

/-- C4: an exact registered match returns its target unmodified; otherwise
the longest registered prefix is the one resolution is built from; with
no exact match and no registered prefix resolution yields `none`; and
concretely, with both `.foo → X` and `.foo.bar → Y` registered,
`.foo.bar.Baz` resolves through `Y`, not `X`. -/
theorem extern_resolution_longest_wins (c : Casing) (m : ExternPaths) (pb : String)
    (hdot : startsWithDot pb = true) :
    (∀ t, alookup m pb = some t →
      ExternPaths.resolve_ident c m pb = .ok (some t))
    ∧ (∀ k rp, alookup m pb = none → 1 ≤ k → k ≤ (splitChar '.' pb).length - 1 →
        alookup m (joinSep "." ((splitChar '.' pb).take k)) = some rp →
        (∀ j, k < j → j ≤ (splitChar '.' pb).length - 1 →
          alookup m (joinSep "." ((splitChar '.' pb).take j)) = none) →
        ExternPaths.resolve_ident c m pb
          = .ok (some (buildExternRef c rp ((splitChar '.' pb).drop k))))
    ∧ (alookup m pb = none →
        (∀ j, 1 ≤ j → j ≤ (splitChar '.' pb).length - 1 →
          alookup m (joinSep "." ((splitChar '.' pb).take j)) = none) →
        ExternPaths.resolve_ident c m pb = .ok none)
    ∧ ExternPaths.resolve_ident idCasing [(".foo", "X"), (".foo.bar", "Y")] ".foo.bar.Baz"
        = .ok (some "Y::Baz") := by
  refine ⟨?_, ?_, ?_, rfl⟩
  · intro t ht
    unfold ExternPaths.resolve_ident
    rw [hdot]
    simp [ht]
  · intro k rp hex hk1 hkn hhit habove
    unfold ExternPaths.resolve_ident
    rw [hdot]
    simp only [if_true, hex]
    rw [externScan_eq_some c m (splitChar '.' pb) k rp hk1 hhit _ hkn habove]
  · intro hex hnone
    unfold ExternPaths.resolve_ident
    rw [hdot]
    simp only [if_true, hex]
    rw [externScan_eq_none c m (splitChar '.' pb) _ hnone]

/-- C4 witness: the theorem applied at the spec's own concrete scenario. -/
theorem extern_resolution_longest_wins_witness :
    ExternPaths.resolve_ident idCasing [(".foo", "X"), (".foo.bar", "Y")] ".foo.bar.Baz"
      = .ok (some "Y::Baz") :=
  (extern_resolution_longest_wins idCasing [(".foo", "X"), (".foo.bar", "Y")]
    ".foo.bar.Baz" rfl).2.2.2

lemma alookup_eq_none_iff {κ ν : Type} [DecidableEq κ] (l : List (κ × ν)) (k : κ) :
    alookup l k = none ↔ k ∉ l.map Prod.fst := by
  induction l with
  | nil => simp [alookup]
  | cons p rest ih =>
    obtain ⟨a, b⟩ := p
    by_cases h : a = k
    · subst h
      simp [alookup]
    · simp [alookup, h, ih]
      intro hk
      exact fun he => h he.symm

lemma alookup_append {κ ν : Type} [DecidableEq κ] (l1 l2 : List (κ × ν)) (k : κ) :
    alookup (l1 ++ l2) k =
      match alookup l1 k with
      | some v => some v
      | none => alookup l2 k := by
  induction l1 with
  | nil => simp [alookup]
  | cons p rest ih =>
    obtain ⟨a, b⟩ := p
    by_cases h : a = k
    · subst h
      simp [alookup]
    · simp [alookup, h, ih]

lemma alookup_mem {κ ν : Type} [DecidableEq κ] (l : List (κ × ν)) (k : κ) (v : ν)
    (h : alookup l k = some v) : (k, v) ∈ l := by
  induction l with
  | nil => simp [alookup] at h
  | cons p rest ih =>
    obtain ⟨a, b⟩ := p
    by_cases hk : a = k
    · subst hk
      simp [alookup] at h
      simp [h]
    · simp [alookup, hk] at h
      exact List.mem_cons_of_mem _ (ih h)

/-- Unfolding equations, stated once for rewriting. -/
lemma keptEnumValues_cons (idx : Nat) (numbers : List Int) (v : EnumValueDescriptorProto)
    (rest : List EnumValueDescriptorProto) :
    keptEnumValues idx numbers (v :: rest) =
      if v.number ∈ numbers then keptEnumValues (idx + 1) numbers rest
      else (idx, v) :: keptEnumValues (idx + 1) (numbers ++ [v.number]) rest := rfl

lemma buildEnumGo_cons (c : Casing) (gn : String) (ds : Bool) (idx : Nat)
    (v : EnumValueDescriptorProto) (rest : List EnumValueDescriptorProto)
    (numbers : List Int) (gnames : List (String × String)) (acc : List EnumVariantMapping) :
    buildEnumGo c gn ds idx (v :: rest) numbers gnames acc =
      if v.number ∈ numbers then
        buildEnumGo c gn ds (idx + 1) rest numbers gnames acc
      else
        match alookup gnames (genVariantName c gn ds v.name) with
        | some old_v => .error (.enumCollision (genVariantName c gn ds v.name) old_v v.name)
        | none =>
          buildEnumGo c gn ds (idx + 1) rest (numbers ++ [v.number])
            (gnames ++ [(genVariantName c gn ds v.name, v.name)])
            (acc ++ [⟨idx, v.name, v.number, genVariantName c gn ds v.name⟩]) := rfl

/-- The collision check of the mapping loop, characterised: with the
already-used generated names `gnames` (whose keys are distinct), the loop
panics exactly when appending the surviving values' generated names to
those keys breaks distinctness. -/
lemma buildEnumGo_error_iff (c : Casing) (gn : String) (ds : Bool) :
    ∀ (vs : List EnumValueDescriptorProto) (idx : Nat) (numbers : List Int)
      (gnames : List (String × String)) (acc : List EnumVariantMapping),
      (gnames.map Prod.fst).Nodup →
      ((∃ e, buildEnumGo c gn ds idx vs numbers gnames acc = .error e) ↔
        ¬ (gnames.map Prod.fst ++
            (keptEnumValues idx numbers vs).map
              (fun p => genVariantName c gn ds p.2.name)).Nodup) := by
  intro vs
  induction vs with
  | nil =>
    intro idx numbers gnames acc hnd
    simp [buildEnumGo, keptEnumValues, hnd]
  | cons v rest ih =>
    intro idx numbers gnames acc hnd
    rw [buildEnumGo_cons, keptEnumValues_cons]
    by_cases hn : v.number ∈ numbers
    · rw [if_pos hn, if_pos hn]
      exact ih (idx + 1) numbers gnames acc hnd
    · rw [if_neg hn, if_neg hn]
      cases hl : alookup gnames (genVariantName c gn ds v.name) with
      | some old_v =>
        constructor
        · intro _
          intro hnodup
          have hmem : genVariantName c gn ds v.name ∈ gnames.map Prod.fst :=
            List.mem_map.mpr ⟨(genVariantName c gn ds v.name, old_v), alookup_mem _ _ _ hl, rfl⟩
          rw [List.nodup_append] at hnodup
          exact hnodup.2.2 hmem (by simp)
        · intro _
          exact ⟨_, rfl⟩
      | none =>
        have hfresh : genVariantName c gn ds v.name ∉ gnames.map Prod.fst :=
          (alookup_eq_none_iff _ _).mp hl
        have hnd2 : ((gnames ++ [(genVariantName c gn ds v.name, v.name)]).map Prod.fst).Nodup := by
          rw [List.map_append, List.nodup_append]
          refine ⟨hnd, by simp, ?_⟩
          intro x hx hb
          simp at hb
          subst hb
          exact hfresh hx
        rw [ih (idx + 1) (numbers ++ [v.number]) _ _ hnd2]
        rw [List.map_append, List.map_cons, List.append_assoc]
        simp

/-- On a collision panic, the names carried by the failure are the two
source names whose generated variant names collapsed, both of them names
of values surviving alias deduplication (or, in general, recorded in the
incoming `gnames`). -/
lemma buildEnumGo_error_names (c : Casing) (gn : String) (ds : Bool) :
    ∀ (vs : List EnumValueDescriptorProto) (idx : Nat) (numbers : List Int)
      (gnames : List (String × String)) (acc : List EnumVariantMapping)
      (gnm a b : String),
      (∀ k n, (k, n) ∈ gnames → k = genVariantName c gn ds n) →
      buildEnumGo c gn ds idx vs numbers gnames acc = .error (.enumCollision gnm a b) →
      ((gnm, a) ∈ gnames
        ∨ ∃ p ∈ keptEnumValues idx numbers vs, p.2.name = a ∧ genVariantName c gn ds a = gnm)
      ∧ (∃ q ∈ keptEnumValues idx numbers vs, q.2.name = b ∧ genVariantName c gn ds b = gnm) := by
  intro vs
  induction vs with
  | nil =>
    intro idx numbers gnames acc gnm a b _ herr
    exact absurd herr (by simp [buildEnumGo])
  | cons v rest ih =>
    intro idx numbers gnames acc gnm a b hinv herr
    rw [buildEnumGo_cons] at herr
    rw [keptEnumValues_cons]
    by_cases hn : v.number ∈ numbers
    · rw [if_pos hn] at herr
      rw [if_pos hn]
      exact ih (idx + 1) numbers gnames acc gnm a b hinv herr
    · rw [if_neg hn] at herr
      rw [if_neg hn]
      cases hl : alookup gnames (genVariantName c gn ds v.name) with
      | some old_v =>
        rw [hl] at herr
        have hinj := Except.error.inj herr
        have h1 : genVariantName c gn ds v.name = gnm := by
          cases hinj
          rfl
        have h2 : old_v = a := by
          cases hinj
          rfl
        have h3 : v.name = b := by
          cases hinj
          rfl
        constructor
        · left
          rw [← h1, ← h2]
          have := alookup_mem _ _ _ hl
          exact this
        · exact ⟨(idx, v), by simp, h3.symm ▸ rfl, by rw [← h3, h1]⟩
      | none =>
        rw [hl] at herr
        have hinv2 : ∀ k n, (k, n) ∈ gnames ++ [(genVariantName c gn ds v.name, v.name)] →
            k = genVariantName c gn ds n := by
          intro k n hkn
          rcases List.mem_append.mp hkn with h | h
          · exact hinv k n h
          · simp at h
            rw [h.1, h.2]
        have := ih (idx + 1) (numbers ++ [v.number]) _ _ gnm a b hinv2 herr
        obtain ⟨hleft, q, hq, hqb, hqg⟩ := this
        constructor
        · rcases hleft with hmem | ⟨p, hp, hpa, hpg⟩
          · rcases List.mem_append.mp hmem with h | h
            · exact Or.inl h
            · simp at h
              right
              refine ⟨(idx, v), by simp, h.2.symm, ?_⟩
              rw [h.2, h.1]
          · exact Or.inr ⟨p, List.mem_cons_of_mem _ hp, hpa, hpg⟩
        · exact ⟨q, List.mem_cons_of_mem _ hq, hqb, hqg⟩

/-- Every failure of the mapping loop is a variant-name collision. -/
lemma buildEnumGo_error_shape (c : Casing) (gn : String) (ds : Bool) :
    ∀ (vs : List EnumValueDescriptorProto) (idx : Nat) (numbers : List Int)
      (gnames : List (String × String)) (acc : List EnumVariantMapping) (e : Panic),
      buildEnumGo c gn ds idx vs numbers gnames acc = .error e →
      ∃ gnm a b, e = .enumCollision gnm a b := by
  intro vs
  induction vs with
  | nil =>
    intro idx numbers gnames acc e herr
    exact absurd herr (by simp [buildEnumGo])
  | cons v rest ih =>
    intro idx numbers gnames acc e herr
    rw [buildEnumGo_cons] at herr
    by_cases hn : v.number ∈ numbers
    · rw [if_pos hn] at herr
      exact ih _ _ _ _ _ herr
    · rw [if_neg hn] at herr
      cases hl : alookup gnames (genVariantName c gn ds v.name) with
      | some old_v =>
        rw [hl] at herr
        exact ⟨_, _, _, (Except.error.inj herr).symm⟩
      | none =>
        rw [hl] at herr
        exact ih _ _ _ _ _ herr

/-- The mappings a successful run returns project, in order, to exactly
the surviving (first-occurrence) values. -/
lemma buildEnumGo_ok_proj (c : Casing) (gn : String) (ds : Bool) :
    ∀ (vs : List EnumValueDescriptorProto) (idx : Nat) (numbers : List Int)
      (gnames : List (String × String)) (acc m : List EnumVariantMapping),
      buildEnumGo c gn ds idx vs numbers gnames acc = .ok m →
      m.map (fun x => (x.path_idx, x.proto_name, x.proto_number))
        = acc.map (fun x => (x.path_idx, x.proto_name, x.proto_number))
          ++ (keptEnumValues idx numbers vs).map (fun p => (p.1, p.2.name, p.2.number)) := by
  intro vs
  induction vs with
  | nil =>
    intro idx numbers gnames acc m hok
    have : acc = m := Except.ok.inj hok
    subst this
    simp [keptEnumValues]
  | cons v rest ih =>
    intro idx numbers gnames acc m hok
    rw [buildEnumGo_cons] at hok
    rw [keptEnumValues_cons]
    by_cases hn : v.number ∈ numbers
    · rw [if_pos hn] at hok
      rw [if_pos hn]
      exact ih _ _ _ _ _ hok
    · rw [if_neg hn] at hok
      rw [if_neg hn]
      cases hl : alookup gnames (genVariantName c gn ds v.name) with
      | some old_v =>
        rw [hl] at hok
        exact absurd hok (by simp)
      | none =>
        rw [hl] at hok
        rw [ih _ _ _ _ _ hok]
        simp

/-- C7: a pair whose integer value occurred earlier in the list is dropped
from the emitted variant list — the mapping a successful build returns
projects exactly to the first occurrence of each integer value, in
declaration order — and on the spec's concrete input
`[(FOO,0),(BAR,1),(BAZ,1)]` exactly `Foo = 0` and `Bar = 1` are emitted,
`BAZ` dropped. -/
theorem enum_alias_dedup_first_wins :
    (∀ (c : Casing) (gn : String) (ds : Bool) (vs : List EnumValueDescriptorProto)
        (m : List EnumVariantMapping),
      build_enum_value_mappings c gn ds vs = .ok m →
      m.map (fun x => (x.path_idx, x.proto_name, x.proto_number))
        = (keptEnumValues 0 [] vs).map (fun p => (p.1, p.2.name, p.2.number)))
    ∧ build_enum_value_mappings enumDemoCasing "Shape" true
        [⟨"FOO", 0⟩, ⟨"BAR", 1⟩, ⟨"BAZ", 1⟩]
        = .ok [⟨0, "FOO", 0, "Foo"⟩, ⟨1, "BAR", 1, "Bar"⟩] := by
  constructor
  · intro c gn ds vs m hok
    have := buildEnumGo_ok_proj c gn ds vs 0 [] [] [] m hok
    simpa using this
  · rfl

/-- C6: building the enum variant mapping fails (with an unrecoverable
`panic!`, modelled as `Except.error`) exactly when two entries surviving
alias deduplication collapse to the same generated variant name after
casing and optional prefix stripping; every failure is such a collision,
and the failure identifies the two colliding source names (both names of
surviving values whose generated names equal the reported variant name);
concretely, a casing collapsing `A` and `B` fails naming `A` and `B`. -/
theorem enum_variant_collision_iff (c : Casing) (gn : String) (ds : Bool)
    (vs : List EnumValueDescriptorProto) :
    ((∃ e, build_enum_value_mappings c gn ds vs = .error e) ↔
      ¬ ((keptEnumValues 0 [] vs).map (fun p => genVariantName c gn ds p.2.name)).Nodup)
    ∧ (∀ gnm a b, build_enum_value_mappings c gn ds vs = .error (.enumCollision gnm a b) →
        (∃ p ∈ keptEnumValues 0 [] vs, p.2.name = a ∧ genVariantName c gn ds a = gnm)
        ∧ (∃ q ∈ keptEnumValues 0 [] vs, q.2.name = b ∧ genVariantName c gn ds b = gnm))
    ∧ (∀ e, build_enum_value_mappings c gn ds vs = .error e →
        ∃ gnm a b, e = .enumCollision gnm a b)
    ∧ build_enum_value_mappings collapseCasing "E" false [⟨"A", 0⟩, ⟨"B", 1⟩]
        = .error (.enumCollision "X" "A" "B") := by
  refine ⟨?_, ?_, ?_, rfl⟩
  · have := buildEnumGo_error_iff c gn ds vs 0 [] [] [] (by simp)
    simpa [build_enum_value_mappings] using this
  · intro gnm a b herr
    have := buildEnumGo_error_names c gn ds vs 0 [] [] [] gnm a b (by simp) herr
    simpa using this
  · intro e herr
    exact buildEnumGo_error_shape c gn ds vs 0 [] [] [] e herr

/-- C2: a non-repeated message/group field whose declared type reaches the
owning message in the containment graph is marked for indirection,
whatever the override configuration; a repeated field is never marked, not
even by an explicit override; concretely, a message `.A` with a singular
field of type `.A` (whose containment edges contain the self-edge that
very field contributes) is boxed, and a message `.A` whose only self-typed
field is repeated (contributing no containment edge) is not boxed. -/
theorem containment_graph_indirection (c : Ctx) (A : String) (oneof : Option String)
    (f : FieldDescriptorProto) :
    (f.label ≠ Label.repeatedL →
      (f.ftype = FieldType.message ∨ f.ftype = FieldType.group) →
      is_nested c.graph_edges f.typeNameStr A = true →
      should_box_impl c A oneof f = true)
    ∧ (f.label = Label.repeatedL → should_box_impl c A oneof f = false)
    ∧ containmentEdges [(".A", [selfField])] = [(".A", ".A")]
    ∧ should_box_message_field
        { trivialCtx with graph_edges := containmentEdges [(".A", [selfField])] }
        ".A" selfField = true
    ∧ containmentEdges [(".A", [selfFieldRep])] = []
    ∧ should_box_message_field
        { trivialCtx with graph_edges := containmentEdges [(".A", [selfFieldRep])] }
        ".A" selfFieldRep = false := by
  refine ⟨?_, ?_, by decide, by decide, by decide, by decide⟩
  · intro h1 h2 h3
    unfold should_box_impl
    rw [if_neg h1, if_pos ⟨h2, h3⟩]
  · intro h1
    unfold should_box_impl
    rw [if_pos h1]

/-- C2 witness: the theorem's general part applied at the concrete
self-referencing message. -/
theorem containment_graph_indirection_witness :
    should_box_impl { trivialCtx with graph_edges := [(".A", ".A")] } ".A" none
      selfField = true :=
  (containment_graph_indirection
      { trivialCtx with graph_edges := [(".A", ".A")] } ".A" none selfField).1
    (by decide) (Or.inl rfl) (by decide)

/-- Both map container choices print the same Rust type. -/
lemma mapType_rust_type_const (mt : MapType) :
    mt.rust_type = "alloc::collections::BTreeMap" := by
  cases mt <;> rfl

/-- C5: the text a map field emits does not depend on the map-container
override category at all — any two resolutions of that category (and in
particular the HashMap default and a BTreeMap override) produce identical
output — because both container choices print
`alloc::collections::BTreeMap`. -/
theorem map_container_override_invariant :
    (∀ (c : Ctx) (m1 m2 : String → String → Option MapType) (fq : String)
        (f : CGField) (key value : FieldDescriptorProto) (st : GenState),
      append_map_field { c with mapTypeFirst := m1 } fq f key value st
        = append_map_field { c with mapTypeFirst := m2 } fq f key value st)
    ∧ (∀ mt : MapType, mt.rust_type = "alloc::collections::BTreeMap") := by
  constructor
  · intro c m1 m2 fq f key value st
    simp only [append_map_field, ctxMapType, mapType_rust_type_const]
    rfl
  · exact mapType_rust_type_const

lemma cmpInt_eq_iff (a b : Int) : cmpInt a b = .eq ↔ a = b := by
  unfold cmpInt
  split_ifs with h1 h2 <;> simp_all <;> omega

lemma cmpInt_lt_iff (a b : Int) : cmpInt a b = .lt ↔ a < b := by
  unfold cmpInt
  split_ifs with h1 h2 <;> simp_all

lemma cmpInt_gt_iff (a b : Int) : cmpInt a b = .gt ↔ b < a := by
  unfold cmpInt
  split_ifs with h1 h2 <;> simp_all <;> omega

lemma cmpIntList_eq_iff : ∀ (a b : List Int), cmpIntList a b = .eq ↔ a = b := by
  intro a
  induction a with
  | nil => intro b; cases b <;> simp [cmpIntList]
  | cons x xs ih =>
    intro b
    cases b with
    | nil => simp [cmpIntList]
    | cons y ys =>
      unfold cmpIntList
      cases h : cmpInt x y with
      | eq =>
        have hx : x = y := (cmpInt_eq_iff x y).mp h
        subst hx
        simp [ih ys]
      | lt =>
        have hx : x < y := (cmpInt_lt_iff x y).mp h
        simp
        intro he
        omega
      | gt =>
        have hx : y < x := (cmpInt_gt_iff x y).mp h
        simp
        intro he
        omega

lemma cmpInt_swap (a b : Int) : cmpInt b a = (cmpInt a b).swap := by
  unfold cmpInt
  rcases lt_trichotomy a b with h | h | h
  · rw [if_neg (by omega : ¬ b < a), if_neg (by omega : ¬ b = a), if_pos h]
    rfl
  · subst h
    rw [if_neg (by omega : ¬ a < a), if_pos rfl]
    rfl
  · rw [if_pos h, if_neg (by omega : ¬ a < b), if_neg (by omega : ¬ a = b)]
    rfl

lemma cmpIntList_swap : ∀ (a b : List Int), cmpIntList b a = (cmpIntList a b).swap := by
  intro a
  induction a with
  | nil =>
    intro b
    cases b <;> simp [cmpIntList, Ordering.swap]
  | cons x xs ih =>
    intro b
    cases b with
    | nil => simp [cmpIntList, Ordering.swap]
    | cons y ys =>
      show (match cmpInt y x with
            | Ordering.eq => cmpIntList ys xs
            | o => o)
          = (match cmpInt x y with
            | Ordering.eq => cmpIntList xs ys
            | o => o).swap
      rw [cmpInt_swap x y]
      cases cmpInt x y with
      | eq => simpa [Ordering.swap] using ih ys
      | lt => simp [Ordering.swap]
      | gt => simp [Ordering.swap]

lemma cmpIntList_lt_gt (a b : List Int) (h : cmpIntList a b = .lt) :
    cmpIntList b a = .gt := by
  rw [cmpIntList_swap a b, h]
  rfl

lemma cmpIntList_lt_trans : ∀ (a b c : List Int),
    cmpIntList a b = .lt → cmpIntList b c = .lt → cmpIntList a c = .lt := by
  intro a
  induction a with
  | nil =>
    intro b c hab hbc
    cases b with
    | nil => cases hab
    | cons y ys =>
      cases c with
      | nil => cases hbc
      | cons z zs => simp [cmpIntList]
  | cons x xs ih =>
    intro b c hab hbc
    cases b with
    | nil => cases hab
    | cons y ys =>
      cases c with
      | nil => cases hbc
      | cons z zs =>
        unfold cmpIntList at hab hbc ⊢
        cases hxy : cmpInt x y with
        | gt => rw [hxy] at hab; cases hab
        | lt =>
          have h1 : x < y := (cmpInt_lt_iff x y).mp hxy
          cases hyz : cmpInt y z with
          | gt => rw [hyz] at hbc; cases hbc
          | lt =>
            have h2 : y < z := (cmpInt_lt_iff y z).mp hyz
            rw [(cmpInt_lt_iff x z).mpr (by omega)]
          | eq =>
            have h2 : y = z := (cmpInt_eq_iff y z).mp hyz
            rw [(cmpInt_lt_iff x z).mpr (by omega)]
        | eq =>
          have h1 : x = y := (cmpInt_eq_iff x y).mp hxy
          subst h1
          rw [hxy] at hab
          cases hyz : cmpInt x z with
          | gt => rw [hyz] at hbc; cases hbc
          | lt => rfl
          | eq =>
            rw [hyz] at hbc
            exact ih ys zs hab hbc

lemma cmpIntList_not_gt_cases (a b : List Int)
    (h : cmpIntList a b ≠ .gt) : cmpIntList a b = .lt ∨ a = b := by
  cases hc : cmpIntList a b with
  | lt => exact Or.inl rfl
  | eq => exact Or.inr ((cmpIntList_eq_iff a b).mp hc)
  | gt => exact absurd hc h

lemma cmpIntList_trans (a b c : List Int)
    (h1 : cmpIntList a b ≠ .gt) (h2 : cmpIntList b c ≠ .gt) :
    cmpIntList a c ≠ .gt := by
  rcases cmpIntList_not_gt_cases a b h1 with hab | hab
  · rcases cmpIntList_not_gt_cases b c h2 with hbc | hbc
    · rw [cmpIntList_lt_trans a b c hab hbc]
      simp
    · subst hbc
      rw [hab]
      simp
  · subst hab
    exact h2

instance : IsTotal Location locLE := by
  constructor
  intro a b
  unfold locLE
  cases h : cmpIntList a.path b.path with
  | lt => exact Or.inl (by simp [h])
  | eq => exact Or.inl (by simp [h])
  | gt =>
    right
    rw [cmpIntList_swap a.path b.path, h]
    simp [Ordering.swap]

instance : IsTrans Location locLE := by
  constructor
  intro a b c
  exact cmpIntList_trans a.path b.path c.path

/-- Soundness of the binary search: a returned index is in bounds and its
location's path is the key. -/
lemma bsAux_sound (locs : List Location) (key : List Int) :
    ∀ (fuel lo hi idx : Nat), hi ≤ locs.length → hi - lo ≤ fuel →
      bsAux locs key fuel lo hi = some idx →
      idx < locs.length ∧ (locs.getD idx default).path = key := by
  intro fuel
  induction fuel with
  | zero =>
    intro lo hi idx _ _ hsome
    cases hsome
  | succ fuel ih =>
    intro lo hi idx hhi hfuel hsome
    rw [bsAux] at hsome
    by_cases h : lo < hi
    · rw [if_pos h] at hsome
      cases hcmp : cmpIntList (locs.getD ((lo + hi) / 2) default).path key with
      | lt =>
        rw [hcmp] at hsome
        exact ih ((lo + hi) / 2 + 1) hi idx hhi (by omega) hsome
      | gt =>
        rw [hcmp] at hsome
        exact ih lo ((lo + hi) / 2) idx (by omega) (by omega) hsome
      | eq =>
        rw [hcmp] at hsome
        have hidx : (lo + hi) / 2 = idx := by
          simpa using hsome
        subst hidx
        exact ⟨by omega, (cmpIntList_eq_iff _ _).mp hcmp⟩
    · rw [if_neg h] at hsome
      cases hsome

lemma bsAux_complete (locs : List Location) (key : List Int)
    (hsort : ∀ i j, i < j → j < locs.length →
      cmpIntList (locs.getD i default).path (locs.getD j default).path ≠ .gt) :
    ∀ (fuel lo hi : Nat), hi ≤ locs.length → hi - lo ≤ fuel →
      (∃ j, lo ≤ j ∧ j < hi ∧ (locs.getD j default).path = key) →
      (bsAux locs key fuel lo hi).isSome = true := by
  intro fuel
  induction fuel with
  | zero =>
    intro lo hi hhi hfuel hex
    obtain ⟨j, hj1, hj2, _⟩ := hex
    omega
  | succ fuel ih =>
    intro lo hi hhi hfuel hex
    obtain ⟨j, hj1, hj2, hj3⟩ := hex
    rw [bsAux]
    rw [if_pos (by omega : lo < hi)]
    cases hcmp : cmpIntList (locs.getD ((lo + hi) / 2) default).path key with
    | lt =>
      refine ih ((lo + hi) / 2 + 1) hi hhi (by omega) ⟨j, ?_, hj2, hj3⟩
      by_contra hcon
      rcases Nat.lt_or_ge j ((lo + hi) / 2) with hlt | hge
      · have hs := hsort j ((lo + hi) / 2) hlt (by omega)
        rw [hj3] at hs
        exact hs (cmpIntList_lt_gt _ _ hcmp)
      · have hjm : j = (lo + hi) / 2 := by omega
        subst hjm
        rw [hj3, (cmpIntList_eq_iff key key).mpr rfl] at hcmp
        cases hcmp
    | gt =>
      refine ih lo ((lo + hi) / 2) (by omega) (by omega) ⟨j, hj1, ?_, hj3⟩
      by_contra hcon
      rcases Nat.lt_or_ge ((lo + hi) / 2) j with hlt | hge
      · have hs := hsort ((lo + hi) / 2) j hlt (by omega)
        rw [hj3] at hs
        exact hs hcmp
      · have hjm : j = (lo + hi) / 2 := by omega
        subst hjm
        rw [hj3, (cmpIntList_eq_iff key key).mpr rfl] at hcmp
        cases hcmp
    | eq => rfl

/-- The processed documentation index is sorted by path. -/
lemma processSourceInfo_sorted (s : SourceCodeInfo) :
    ∀ i j, i < j → j < (processSourceInfo s).location.length →
      cmpIntList ((processSourceInfo s).location.getD i default).path
        ((processSourceInfo s).location.getD j default).path ≠ .gt := by
  intro i j hij hj
  have hs : ((s.location.filter
      (fun l => decide (0 < l.path.length) && decide (l.path.length % 2 = 0))).insertionSort
        locLE).Sorted locLE :=
    List.sorted_insertionSort locLE _
  have hp := List.pairwise_iff_get.mp hs
  have hi : i < (processSourceInfo s).location.length := by omega
  have := hp ⟨i, hi⟩ ⟨j, hj⟩ hij
  rw [List.getD_eq_getElem _ _ hi, List.getD_eq_getElem _ _ hj]
  simpa [locLE, List.get_eq_getElem] using this

lemma mem_paths_iff_getD (l : List Location) (p : List Int) :
    p ∈ l.map Location.path ↔ ∃ j, j < l.length ∧ (l.getD j default).path = p := by
  rw [List.mem_map]
  constructor
  · rintro ⟨loc, hmem, hpath⟩
    obtain ⟨n, hn⟩ := List.mem_iff_get.mp hmem
    exact ⟨n.1, n.2, by rw [List.getD_eq_getElem _ _ n.2, ← List.get_eq_getElem, hn, hpath]⟩
  · rintro ⟨j, hj, hpath⟩
    exact ⟨l.getD j default, by
      rw [List.getD_eq_getElem _ _ hj]
      exact List.getElem_mem hj, hpath⟩

/-- C1 (amended): a file carrying no documentation metadata at all yields
no documentation and no failure; but when metadata is present, a looked-up
path ABSENT from the (even-length-filtered, sorted) index makes the
lookup panic — `binary_search…unwrap()` — and a present path returns its
location. -/
theorem doc_lookup_amended (si : SourceCodeInfo) (p : List Int) :
    location none p = .ok none
    ∧ (p ∈ (processSourceInfo si).location.map Location.path →
        ∃ loc, location (some (processSourceInfo si)) p = .ok (some loc) ∧ loc.path = p)
    ∧ (p ∉ (processSourceInfo si).location.map Location.path →
        location (some (processSourceInfo si)) p = .error .missingLocation) := by
  refine ⟨rfl, ?_, ?_⟩
  · intro hmem
    obtain ⟨j, hj, hpath⟩ := (mem_paths_iff_getD _ _).mp hmem
    have hcomplete := bsAux_complete (processSourceInfo si).location p
      (processSourceInfo_sorted si) (processSourceInfo si).location.length 0
      (processSourceInfo si).location.length (le_refl _) (by omega)
      ⟨j, Nat.zero_le _, hj, hpath⟩
    obtain ⟨idx, hidx⟩ := Option.isSome_iff_exists.mp hcomplete
    have hsound := bsAux_sound (processSourceInfo si).location p
      (processSourceInfo si).location.length 0
      (processSourceInfo si).location.length idx (le_refl _) (by omega) hidx
    refine ⟨(processSourceInfo si).location.getD idx default, ?_, hsound.2⟩
    unfold location
    dsimp only
    rw [hidx]
  · intro hmem
    unfold location
    dsimp only
    cases hb : bsAux (processSourceInfo si).location p
        (processSourceInfo si).location.length 0 (processSourceInfo si).location.length with
    | none => rfl
    | some idx =>
      exfalso
      have hsound := bsAux_sound (processSourceInfo si).location p
        (processSourceInfo si).location.length 0
        (processSourceInfo si).location.length idx (le_refl _) (by omega) hb
      exact hmem ((mem_paths_iff_getD _ _).mpr ⟨idx, hsound.1, hsound.2⟩)

/-- C1 witness: a present path is found without failure. -/
theorem doc_lookup_amended_witness :
    ∃ loc, location (some (processSourceInfo ⟨[⟨[4, 0], some " doc", none⟩]⟩)) [4, 0]
        = .ok (some loc) ∧ loc.path = [4, 0] :=
  (doc_lookup_amended ⟨[⟨[4, 0], some " doc", none⟩]⟩ [4, 0]).2.1 (by decide)

/-- C1, counterexample: the documentation index of `fileMissingLoc` has no
entry for the path `[4, 0]` the orchestrator looks up for its first
message, and generation PANICS (the claim says it proceeds without
error): absence of a location is only harmless when the file carries no
source info at all. -/
theorem doc_lookup_miss_panics :
    location (some (processSourceInfo ⟨[⟨[5, 0], some " c", none⟩]⟩)) [4, 0]
        = .error .missingLocation
    ∧ codegenGenerate trivialCtx (none : Option (ServiceGen Unit)) fileMissingLoc "" ()
        = .error .missingLocation := by
  exact ⟨rfl, rfl⟩

lemma core_incDepth (st : GenState) :
    (incDepth st).core = { st.core with depth := st.core.depth + 1 } := rfl

lemma core_decDepth (st : GenState) :
    (decDepth st).core = { st.core with depth := st.core.depth - 1 } := rfl

lemma core_pushPath (st : GenState) (i : Int) :
    (pushPath st i).core = { st.core with path := st.core.path ++ [i] } := rfl

lemma core_popPath (st : GenState) :
    (popPath st).core = { st.core with path := st.core.path.dropLast } := rfl

lemma core_pushTypePath (st : GenState) (m : String) :
    (pushTypePath st m).core = { st.core with type_path := st.core.type_path ++ [m] } := rfl

lemma core_popTypePath (st : GenState) :
    (popTypePath st).core = { st.core with type_path := st.core.type_path.dropLast } := rfl

lemma core_pushBuf (st : GenState) (s : String) : (pushBuf st s).core = st.core := rfl

lemma core_pushIndent (st : GenState) : (pushIndent st).core = st.core := rfl

lemma core_appendAttrsWith (attrs : List String) :
    ∀ (st : GenState), (appendAttrsWith attrs st).core = st.core := by
  induction attrs with
  | nil => intro st; rfl
  | cons a rest ih =>
    intro st
    show (appendAttrsWith rest (pushBuf st (indentStr st.depth ++ a ++ "\n"))).core = st.core
    rw [ih]
    rfl

lemma bind_ok {α β : Type} (x : Except Panic α) (f : α → Except Panic β) (b : β)
    (h : (x >>= f) = .ok b) : ∃ a, x = .ok a ∧ f a = .ok b := by
  cases x with
  | error e => cases h
  | ok a => exact ⟨a, rfl, h⟩

lemma core_append_doc (c : Ctx) (fq : String) (fn : Option String) (st st2 : GenState)
    (h : append_doc c fq fn st = .ok st2) : st2.core = st.core := by
  unfold append_doc at h
  split at h
  · cases h
    rfl
  · split at h
    · cases h
    · cases h
      rfl
    · cases h
      rfl

lemma core_append_type_attributes (c : Ctx) (fq : String) (st st2 : GenState)
    (h : append_type_attributes c fq st = .ok st2) : st2.core = st.core := by
  unfold append_type_attributes at h
  split at h
  · cases h
    exact core_appendAttrsWith _ st
  · cases h

lemma core_append_message_attributes (c : Ctx) (fq : String) (st st2 : GenState)
    (h : append_message_attributes c fq st = .ok st2) : st2.core = st.core := by
  unfold append_message_attributes at h
  split at h
  · cases h
    exact core_appendAttrsWith _ st
  · cases h

lemma core_append_enum_attributes (c : Ctx) (fq : String) (st st2 : GenState)
    (h : append_enum_attributes c fq st = .ok st2) : st2.core = st.core := by
  unfold append_enum_attributes at h
  split at h
  · cases h
    exact core_appendAttrsWith _ st
  · cases h

lemma core_append_field_attributes (c : Ctx) (fq fname : String) (st st2 : GenState)
    (h : append_field_attributes c fq fname st = .ok st2) : st2.core = st.core := by
  unfold append_field_attributes at h
  split at h
  · cases h
    exact core_appendAttrsWith _ st
  · cases h

lemma core_append_field (c : Ctx) (fq : String) (f : CGField) (st st2 : GenState)
    (h : append_field c fq f st = .ok st2) : st2.core = st.core := by
  unfold append_field at h
  obtain ⟨ty, hty, h⟩ := bind_ok _ _ _ h
  obtain ⟨stA, hA, h⟩ := bind_ok _ _ _ h
  obtain ⟨stB, hB, h⟩ := bind_ok _ _ _ h
  cases h
  have e1 := core_append_doc _ _ _ _ _ hA
  have e2 := core_append_field_attributes _ _ _ _ _ hB
  split_ifs <;>
    simp only [core_pushBuf, core_pushIndent] <;>
    rw [e2, e1]

lemma core_append_map_field (c : Ctx) (fq : String) (f : CGField)
    (key value : FieldDescriptorProto) (st st2 : GenState)
    (h : append_map_field c fq f key value st = .ok st2) : st2.core = st.core := by
  unfold append_map_field at h
  obtain ⟨kt, hkt, h⟩ := bind_ok _ _ _ h
  obtain ⟨vt, hvt, h⟩ := bind_ok _ _ _ h
  obtain ⟨stA, hA, h⟩ := bind_ok _ _ _ h
  obtain ⟨stB, hB, h⟩ := bind_ok _ _ _ h
  cases h
  have e1 := core_append_doc _ _ _ _ _ hA
  have e2 := core_append_field_attributes _ _ _ _ _ hB
  simp only [core_pushBuf, core_pushIndent]
  rw [e2, e1]

lemma core_append_oneof_field (c : Ctx) (mn fq : String) (oneof : CGOneofField)
    (st st2 : GenState)
    (h : append_oneof_field c mn fq oneof st = .ok st2) : st2.core = st.core := by
  unfold append_oneof_field at h
  obtain ⟨stA, hA, h⟩ := bind_ok _ _ _ h
  obtain ⟨stB, hB, h⟩ := bind_ok _ _ _ h
  cases h
  have e1 := core_append_doc _ _ _ _ _ hA
  have e2 := core_append_field_attributes _ _ _ _ _ hB
  simp only [core_pushBuf]
  rw [e2]
  rw [show (pushIndent stA).core = stA.core from rfl, e1]

lemma core_fields (st st2 : GenState) (h : st.core = st2.core) :
    st.package = st2.package ∧ st.type_path = st2.type_path
      ∧ st.source_info = st2.source_info ∧ st.syn = st2.syn
      ∧ st.depth = st2.depth ∧ st.path = st2.path := by
  unfold GenState.core at h
  simp [Cursor.mk.injEq] at h
  exact h

lemma core_of_fields (st st2 : GenState)
    (h : st.package = st2.package ∧ st.type_path = st2.type_path
      ∧ st.source_info = st2.source_info ∧ st.syn = st2.syn
      ∧ st.depth = st2.depth ∧ st.path = st2.path) : st.core = st2.core := by
  unfold GenState.core
  obtain ⟨h1, h2, h3, h4, h5, h6⟩ := h
  rw [h1, h2, h3, h4, h5, h6]

/-- A balanced push/pop of one path element around a core-preserving
body unwinds to the original cursor. -/
lemma core_push_pop (st stB : GenState) (i : Int)
    (hB : stB.core = (pushPath st i).core) : (popPath stB).core = st.core := by
  obtain ⟨h1, h2, h3, h4, h5, h6⟩ := core_fields _ _ hB
  refine core_of_fields _ _ ⟨h1, h2, h3, h4, h5, ?_⟩
  show stB.path.dropLast = st.path
  rw [show (pushPath st i).path = st.path ++ [i] from rfl] at h6
  rw [h6, List.dropLast_concat]

/-- Two pushes, a core-preserving body, two pops. -/
lemma core_push_pop2 (st stB : GenState) (i j : Int)
    (hB : stB.core = (pushPath (pushPath st i) j).core) :
    (popPath (popPath stB)).core = st.core := by
  have h1 : (popPath stB).core = (pushPath st i).core :=
    core_push_pop (pushPath st i) stB j hB
  exact core_push_pop st (popPath stB) i h1

/-- Push a path element and a depth level, a core-preserving body, then
unwind both. -/
lemma core_depth_push_pop (st stB : GenState) (i : Int)
    (hB : stB.core = (incDepth (pushPath st i)).core) :
    (popPath (decDepth stB)).core = st.core := by
  obtain ⟨h1, h2, h3, h4, h5, h6⟩ := core_fields _ _ hB
  refine core_of_fields _ _ ⟨h1, h2, h3, h4, ?_, ?_⟩
  · show stB.depth - 1 = st.depth
    rw [show (incDepth (pushPath st i)).depth = st.depth + 1 from rfl] at h5
    omega
  · show stB.path.dropLast = st.path
    rw [show (incDepth (pushPath st i)).path = st.path ++ [i] from rfl] at h6
    rw [h6, List.dropLast_concat]

lemma core_appendOneofVariants (c : Ctx) (fq onm odn : String) :
    ∀ (fs : List CGField) (st st2 : GenState),
      appendOneofVariants c fq onm odn fs st = .ok st2 → st2.core = st.core := by
  intro fs
  induction fs with
  | nil =>
    intro st st2 h
    cases h
    rfl
  | cons f rest ih =>
    intro st st2 h
    unfold appendOneofVariants at h
    obtain ⟨stA, hA, h⟩ := bind_ok _ _ _ h
    obtain ⟨stB, hB, h⟩ := bind_ok _ _ _ h
    obtain ⟨ty, hty, h⟩ := bind_ok _ _ _ h
    have e1 : stA.core = (pushPath st f.path_index).core := core_append_doc _ _ _ _ _ hA
    have e3 : (popPath stA).core = st.core := core_push_pop _ _ _ e1
    have e2 : stB.core = (popPath stA).core := by
      rw [core_append_field_attributes _ _ _ _ _ hB]
      rfl
    have e5 : stB.core = st.core := by rw [e2, e3]
    dsimp only at h
    split at h
    · have hr := ih _ _ h
      rw [hr, core_pushBuf, e5]
    · have hr := ih _ _ h
      rw [hr, core_pushBuf, e5]

lemma record_of_core (st st2 : GenState) (h : st2.core = st.core) :
    ∃ b, st2 = { st with buf := b } := by
  cases st with
  | mk p tp si syn d path buf =>
    cases st2 with
    | mk p2 tp2 si2 syn2 d2 path2 buf2 =>
      refine ⟨buf2, ?_⟩
      unfold GenState.core at h
      simp [Cursor.mk.injEq] at h
      obtain ⟨h1, h2, h3, h4, h5, h6⟩ := h
      rw [h1, h2, h3, h4, h5, h6]

lemma core_appendAsStrArms (l : List EnumVariantMapping) :
    ∀ (st : GenState), (appendAsStrArms l st).core = st.core := by
  induction l with
  | nil => intro st; rfl
  | cons v rest ih =>
    intro st
    show (appendAsStrArms rest _).core = st.core
    rw [ih]
    rfl

lemma core_appendFromStrArms (l : List EnumVariantMapping) :
    ∀ (st : GenState), (appendFromStrArms l st).core = st.core := by
  induction l with
  | nil => intro st; rfl
  | cons v rest ih =>
    intro st
    show (appendFromStrArms rest _).core = st.core
    rw [ih]
    rfl

lemma core_appendEnumVariantDecls (c : Ctx) (fq : String) :
    ∀ (l : List EnumVariantMapping) (st st2 : GenState),
      appendEnumVariantDecls c fq l st = .ok st2 → st2.core = st.core := by
  intro l
  induction l with
  | nil =>
    intro st st2 h
    cases h
    rfl
  | cons v rest ih =>
    intro st st2 h
    unfold appendEnumVariantDecls at h
    obtain ⟨stA, hA, h⟩ := bind_ok _ _ _ h
    obtain ⟨stB, hB, h⟩ := bind_ok _ _ _ h
    have e1 : stA.core = (pushPath st (Int.ofNat v.path_idx)).core :=
      core_append_doc _ _ _ _ _ hA
    have e2 : stB.core = stA.core := core_append_field_attributes _ _ _ _ _ hB
    have e3 : stB.core = (pushPath st (Int.ofNat v.path_idx)).core := by rw [e2, e1]
    have e4 := core_push_pop _ _ _ e3
    have hr := ih _ _ h
    rw [hr]
    show (popPath (pushBuf (pushIndent stB) _)).core = st.core
    rw [show (popPath (pushBuf (pushIndent stB) _)).core = (popPath stB).core from rfl]
    exact e4

lemma core_push_pop_depth (st stB : GenState) (i : Int)
    (hB : stB.core = (pushPath (incDepth st) i).core) :
    (decDepth (popPath stB)).core = st.core := by
  obtain ⟨h1, h2, h3, h4, h5, h6⟩ := core_fields _ _ hB
  refine core_of_fields _ _ ⟨h1, h2, h3, h4, ?_, ?_⟩
  · show stB.depth - 1 = st.depth
    rw [show (pushPath (incDepth st) i).depth = st.depth + 1 from rfl] at h5
    omega
  · show stB.path.dropLast = st.path
    rw [show (pushPath (incDepth st) i).path = st.path ++ [i] from rfl] at h6
    rw [h6, List.dropLast_concat]

set_option maxHeartbeats 1000000 in
lemma core_append_oneof (c : Ctx) (fq : String) (oneof : CGOneofField) (st st2 : GenState)
    (h : append_oneof c fq oneof st = .ok st2) : st2.core = st.core := by
  unfold append_oneof at h
  obtain ⟨stA, hA, h⟩ := bind_ok _ _ _ h
  obtain ⟨stB, hB, h⟩ := bind_ok _ _ _ h
  obtain ⟨stC, hC, h⟩ := bind_ok _ _ _ h
  obtain ⟨stD, hD, h⟩ := bind_ok _ _ _ h
  cases h
  have e1 : stA.core = (pushPath (pushPath st 8) oneof.path_index).core :=
    core_append_doc _ _ _ _ _ hA
  have e2 : (popPath (popPath stA)).core = st.core := core_push_pop2 _ _ _ _ e1
  have e3 : stB.core = (popPath (popPath stA)).core :=
    core_append_type_attributes _ _ _ _ hB
  have e4 : stC.core = stB.core := core_append_enum_attributes _ _ _ _ hC
  have e5 := core_appendOneofVariants _ _ _ _ _ _ _ hD
  have e6 : stD.core = (incDepth (pushPath stC 2)).core := by
    rw [e5]
    rfl
  have e7 := core_depth_push_pop _ _ _ e6
  show (pushBuf (pushIndent (popPath (decDepth stD))) _).core = st.core
  rw [core_pushBuf, core_pushIndent, e7, e4, e3, e2]

lemma core_append_enum (c : Ctx) (desc : EnumDescriptorProto) (st st2 : GenState)
    (h : append_enum c desc st = .ok st2) : st2.core = st.core := by
  unfold append_enum at h
  obtain ⟨r, hr, h⟩ := bind_ok _ _ _ h
  split at h
  · cases h
    rfl
  · obtain ⟨stA, hA, h⟩ := bind_ok _ _ _ h
    obtain ⟨stB, hB, h⟩ := bind_ok _ _ _ h
    obtain ⟨stC, hC, h⟩ := bind_ok _ _ _ h
    obtain ⟨vm, hvm, h⟩ := bind_ok _ _ _ h
    obtain ⟨stD, hD, h⟩ := bind_ok _ _ _ h
    cases h
    have eA := core_append_doc _ _ _ _ _ hA
    have eB := core_append_type_attributes _ _ _ _ hB
    have eC := core_append_enum_attributes _ _ _ _ hC
    have eD := core_appendEnumVariantDecls _ _ _ _ _ hD
    simp only [core_pushBuf, core_pushIndent, core_incDepth, core_decDepth,
      core_pushPath, core_popPath] at eD
    rw [eC, eB, eA] at eD
    simp only [core_pushBuf, core_pushIndent, core_incDepth, core_decDepth,
      core_pushPath, core_popPath, core_appendAsStrArms, core_appendFromStrArms]
    rw [eD]
    simp [List.dropLast_concat]

lemma core_appendFieldsLoop (c : Ctx) (fq : String)
    (mt : List (String × (FieldDescriptorProto × FieldDescriptorProto)))
    (l : List CGField) (st st2 : GenState)
    (h : appendFieldsLoop c fq mt l st = .ok st2) : st2.core = st.core := by
  induction l generalizing st with
  | nil => cases h; rfl
  | cons f rest ih =>
    rw [appendFieldsLoop] at h
    split at h
    · obtain ⟨stM, hM, h⟩ := bind_ok _ _ _ h
      have e2 := ih _ h
      have e1 := core_append_map_field _ _ _ _ _ _ _ hM
      simp only [core_popPath, core_pushPath] at e2 e1
      rw [e2, e1]
      simp [List.dropLast_concat]
    · obtain ⟨stM, hM, h⟩ := bind_ok _ _ _ h
      have e2 := ih _ h
      have e1 := core_append_field _ _ _ _ _ hM
      simp only [core_popPath, core_pushPath] at e2 e1
      rw [e2, e1]
      simp [List.dropLast_concat]

lemma core_appendOneofFieldsLoop (c : Ctx) (mn fq : String)
    (l : List CGOneofField) (st st2 : GenState)
    (h : appendOneofFieldsLoop c mn fq l st = .ok st2) : st2.core = st.core := by
  induction l generalizing st with
  | nil => cases h; rfl
  | cons o rest ih =>
    rw [appendOneofFieldsLoop] at h
    obtain ⟨stM, hM, h⟩ := bind_ok _ _ _ h
    have e2 := ih _ h
    have e1 := core_append_oneof_field _ _ _ _ _ _ hM
    simp only [core_popPath, core_pushPath] at e2 e1
    rw [e2, e1]
    simp [List.dropLast_concat]

lemma core_appendMessageStruct (c : Ctx) (mn fq : String)
    (mt : List (String × (FieldDescriptorProto × FieldDescriptorProto)))
    (fields : List CGField) (ofs : List CGOneofField) (st st2 : GenState)
    (h : appendMessageStruct c mn fq mt fields ofs st = .ok st2) :
    st2.core = st.core := by
  unfold appendMessageStruct at h
  obtain ⟨stA, hA, h⟩ := bind_ok _ _ _ h
  obtain ⟨stB, hB, h⟩ := bind_ok _ _ _ h
  obtain ⟨stC, hC, h⟩ := bind_ok _ _ _ h
  obtain ⟨stD, hD, h⟩ := bind_ok _ _ _ h
  obtain ⟨stE, hE, h⟩ := bind_ok _ _ _ h
  cases h
  have eA := core_append_doc _ _ _ _ _ hA
  have eB := core_append_type_attributes _ _ _ _ hB
  have eC := core_append_message_attributes _ _ _ _ hC
  have eD := core_appendFieldsLoop _ _ _ _ _ _ hD
  have eE := core_appendOneofFieldsLoop _ _ _ _ _ _ hE
  simp only [core_pushBuf, core_pushIndent, core_incDepth, core_decDepth,
    core_pushPath, core_popPath] at eD eE
  rw [eC, eB, eA] at eD
  rw [eD] at eE
  simp only [core_pushBuf, core_pushIndent, core_incDepth, core_decDepth,
    core_pushPath, core_popPath]
  rw [eE]
  simp [List.dropLast_concat]

lemma core_appendEnumLoop (c : Ctx) (l : List EnumDescriptorProto) (idx : Nat)
    (st st2 : GenState) (h : appendEnumLoop c l idx st = .ok st2) :
    st2.core = st.core := by
  induction l generalizing idx st with
  | nil => cases h; rfl
  | cons e rest ih =>
    rw [appendEnumLoop] at h
    obtain ⟨stM, hM, h⟩ := bind_ok _ _ _ h
    have e2 := ih _ _ h
    have e1 := core_append_enum _ _ _ _ hM
    simp only [core_popPath, core_pushPath] at e2 e1
    rw [e2, e1]
    simp [List.dropLast_concat]

lemma core_appendOneofDeclLoop (c : Ctx) (fq : String)
    (l : List CGOneofField) (st st2 : GenState)
    (h : appendOneofDeclLoop c fq l st = .ok st2) : st2.core = st.core := by
  induction l generalizing st with
  | nil => cases h; rfl
  | cons o rest ih =>
    rw [appendOneofDeclLoop] at h
    obtain ⟨stM, hM, h⟩ := bind_ok _ _ _ h
    have e2 := ih _ h
    have e1 := core_append_oneof _ _ _ _ _ hM
    rw [e2, e1]

lemma core_push_mod (c : Ctx) (st : GenState) (m : String) :
    (push_mod c st m).core
      = { st.core with type_path := st.core.type_path ++ [m],
                       depth := st.core.depth + 1 } := rfl

lemma core_pop_mod (st : GenState) :
    (pop_mod st).core
      = { st.core with type_path := st.core.type_path.dropLast,
                       depth := st.core.depth - 1 } := rfl

lemma appendNestedLoop_cons (c : Ctx) (nt : DescriptorProto)
    (rest : List DescriptorProto) (idx : Nat) (st : GenState) :
    appendNestedLoop c (nt :: rest) idx st
      = if isMapEntry nt then appendNestedLoop c rest (idx + 1) st
        else (do
          let st := pushPath st (Int.ofNat idx)
          let st ← append_message c nt st
          let st := popPath st
          appendNestedLoop c rest (idx + 1) st) := rfl

lemma core_append_message (c : Ctx) (msg : DescriptorProto) (st st2 : GenState)
    (h : append_message c msg st = .ok st2) : st2.core = st.core := by
  revert st2
  refine append_message.induct c
    (fun msg st => ∀ st2, append_message c msg st = .ok st2 → st2.core = st.core)
    (fun l idx st => ∀ st2, appendNestedLoop c l idx st = .ok st2 → st2.core = st.core)
    ?_ ?_ ?_ ?_ msg st
  · intro st n fieldL nestedL enumL oneofL me IH st2 h
    rw [append_message.eq_def] at h
    dsimp only at h
    obtain ⟨r, hr, h⟩ := bind_ok _ _ _ h
    split at h
    · cases h
      rfl
    · obtain ⟨mt, hmt, h⟩ := bind_ok _ _ _ h
      obtain ⟨stS, hS, h⟩ := bind_ok _ _ _ h
      have eS := core_appendMessageStruct _ _ _ _ _ _ _ _ hS
      split at h
      · cases h
        exact eS
      · obtain ⟨stN, hN, h⟩ := bind_ok _ _ _ h
        obtain ⟨stE, hE, h⟩ := bind_ok _ _ _ h
        obtain ⟨stO, hO, h⟩ := bind_ok _ _ _ h
        cases h
        have eN := IH stS _ hN
        have eE := core_appendEnumLoop _ _ _ _ _ hE
        have eO := core_appendOneofDeclLoop _ _ _ _ _ hO
        simp only [core_pushBuf, core_pushIndent, core_pushPath, core_popPath,
          core_push_mod] at eN eE eO
        rw [eS] at eN
        rw [eN] at eE
        rw [eE] at eO
        simp only [core_pop_mod]
        rw [eO]
        simp [List.dropLast_concat]
  · intro idx st st2 h
    cases h
    rfl
  · intro idx st nt rest hmap ih st2 h
    rw [appendNestedLoop_cons] at h
    rw [if_pos hmap] at h
    exact ih st2 h
  · intro idx st nt rest hmap stP ih1 ih2 st2 h
    rw [appendNestedLoop_cons] at h
    rw [if_neg hmap] at h
    obtain ⟨stM, hM, h⟩ := bind_ok _ _ _ h
    have e1 : stM.core = (pushPath st (Int.ofNat idx)).core := ih1 _ hM
    have e2 : st2.core = (popPath stM).core := ih2 stM _ h
    simp only [core_pushPath, core_popPath] at e1 e2
    rw [e2, e1]
    simp [List.dropLast_concat]

/-- C10: every per-declaration generation step (`append_message`,
`append_enum`) restores the emission cursor — the nested-type path
(`type_path`), the schema-tree path (`path`) and the indentation depth
(`depth`) — to its entry value on every `.ok` exit, and the early return
taken when the declaration resolves in the extern registry returns the
entry state unchanged. -/
theorem emission_cursor_restored (c : Ctx) (msg : DescriptorProto)
    (e : EnumDescriptorProto) (st st' st2 st3 : GenState)
    (hm : append_message c msg st = .ok st2)
    (he : append_enum c e st' = .ok st3) :
    (st2.type_path = st.type_path ∧ st2.path = st.path ∧ st2.depth = st.depth)
    ∧ (st3.type_path = st'.type_path ∧ st3.path = st'.path ∧ st3.depth = st'.depth)
    ∧ (∀ t, ExternPaths.resolve_ident c.casing c.extern_paths (fqName st msg.name)
        = .ok (some t) → append_message c msg st = .ok st) := by
  refine ⟨?_, ?_, ?_⟩
  · have h := core_append_message c msg st st2 hm
    obtain ⟨-, h2, -, -, h5, h6⟩ := core_fields _ _ h
    exact ⟨h2, h6, h5⟩
  · have h := core_append_enum c e st' st3 he
    obtain ⟨-, h2, -, -, h5, h6⟩ := core_fields _ _ h
    exact ⟨h2, h6, h5⟩
  · intro t hres
    cases msg with
    | mk n fieldL nestedL enumL oneofL me =>
      rw [append_message.eq_def]
      dsimp only
      dsimp only [DescriptorProto.name] at hres
      rw [hres]
      rfl

set_option maxRecDepth 10000 in
/-- The cursor-restoration theorem at a concrete empty message, empty
enum and top-level entry state. -/
theorem emission_cursor_restored_witness :
    (msgOutC10.type_path = st0C10.type_path ∧ msgOutC10.path = st0C10.path
        ∧ msgOutC10.depth = st0C10.depth)
    ∧ (enumOutC10.type_path = st0C10.type_path ∧ enumOutC10.path = st0C10.path
        ∧ enumOutC10.depth = st0C10.depth)
    ∧ (∀ t, ExternPaths.resolve_ident trivialCtx.casing trivialCtx.extern_paths
          (fqName st0C10 msg0C10.name) = .ok (some t)
        → append_message trivialCtx msg0C10 st0C10 = .ok st0C10) :=
  emission_cursor_restored trivialCtx msg0C10 e0C10 st0C10 st0C10 msgOutC10
    enumOutC10 rfl rfl

lemma joinSep_splitCharAux (sep : Char) :
    ∀ (l acc : List Char),
      (joinSep (String.mk [sep]) (splitCharAux sep l acc)).data
        = acc.reverse ++ l := by
  intro l
  induction l with
  | nil =>
    intro acc
    simp [splitCharAux, joinSep]
  | cons c rest ih =>
    intro acc
    unfold splitCharAux
    split
    · rename_i hc
      rcases hrest : splitCharAux sep rest [] with _ | ⟨s, tl⟩
      · exact absurd hrest (splitCharAux_ne_nil sep rest [])
      · have hih := ih []
        rw [hrest] at hih
        rw [joinSep]
        · subst hc
          simp [hih]
        · simp
    · have hih := ih (c :: acc)
      rw [hih]
      simp

lemma joinSep_splitChar (p : String) :
    joinSep (String.mk ['.']) (splitChar '.' p) = p := by
  have h := joinSep_splitCharAux '.' p.data []
  unfold splitChar
  cases p with
  | mk d =>
    cases hm : joinSep (String.mk ['.']) (splitCharAux '.' (String.mk d).data []) with
    | mk d2 =>
      rw [hm] at h
      simp at h
      rw [h]

lemma fromPackage_inj {p q : String}
    (h : Module.fromPackage p = Module.fromPackage q) : p = q := by
  unfold Module.fromPackage at h
  have h2 : (if p.isEmpty then ([] : List String) else splitChar '.' p)
      = (if q.isEmpty then [] else splitChar '.' q) := congrArg Module.parts h
  by_cases hp : p.isEmpty <;> by_cases hq : q.isEmpty
  · rw [String.isEmpty_iff] at hp hq
    rw [hp, hq]
  · rw [if_pos hp, if_neg hq] at h2
    exact absurd h2.symm (splitCharAux_ne_nil '.' _ [])
  · rw [if_neg hp, if_pos hq] at h2
    exact absurd h2 (splitCharAux_ne_nil '.' _ [])
  · rw [if_neg hp, if_neg hq] at h2
    have := congrArg (joinSep (String.mk ['.'])) h2
    rwa [joinSep_splitChar, joinSep_splitChar] at this

lemma alookup_mupdate {ν : Type} (l : List (Module × ν)) (k : Module) (v : ν)
    (m : Module) :
    alookup (mupdate l k v) m = if k = m then some v else alookup l m := by
  induction l with
  | nil => simp [mupdate, alookup]
  | cons p rest ih =>
    obtain ⟨a, b⟩ := p
    by_cases hak : a = k
    · subst hak
      simp only [mupdate, if_pos rfl]
      by_cases ham : a = m
      · subst ham
        simp [alookup]
      · simp [alookup, ham, fun h : a = m => ham h]
    · simp only [mupdate, if_neg hak]
      by_cases ham : a = m
      · subst ham
        have hkm : ¬k = a := fun h => hak h.symm
        simp [alookup, if_neg hkm]
      · simp [alookup, ham, ih]

lemma mupdate_fst {ν : Type} (l : List (Module × ν)) (k : Module) (v : ν) :
    (mupdate l k v).map Prod.fst
      = if k ∈ l.map Prod.fst then l.map Prod.fst else l.map Prod.fst ++ [k] := by
  induction l with
  | nil => simp [mupdate]
  | cons p rest ih =>
    obtain ⟨a, b⟩ := p
    by_cases hak : a = k
    · subst hak
      simp [mupdate]
    · have hka : ¬k = a := fun h => hak h.symm
      by_cases hk : k ∈ rest.map Prod.fst
      · simp [mupdate, hak, ih, hk, hka]
      · simp [mupdate, hak, ih, hk, hka]

lemma mupdate_fst_nodup {ν : Type} (l : List (Module × ν)) (k : Module) (v : ν)
    (h : (l.map Prod.fst).Nodup) : ((mupdate l k v).map Prod.fst).Nodup := by
  rw [mupdate_fst]
  split
  · exact h
  · rename_i hk
    simp [List.nodup_append, h, hk]

lemma mem_mupdate {ν : Type} (l : List (Module × ν)) (k : Module) (v : ν)
    (e : Module × ν) (h : e ∈ mupdate l k v) : e ∈ l ∨ e = (k, v) := by
  induction l with
  | nil =>
    simp [mupdate] at h
    right
    rw [h]
  | cons p rest ih =>
    obtain ⟨a, b⟩ := p
    by_cases hak : a = k
    · subst hak
      simp only [mupdate, if_pos rfl] at h
      rcases List.mem_cons.mp h with h1 | h2
      · right; rw [h1]
      · left; exact List.mem_cons_of_mem _ h2
    · simp only [mupdate, if_neg hak] at h
      rcases List.mem_cons.mp h with h1 | h2
      · left; rw [h1]; exact List.mem_cons_self _ _
      · rcases ih h2 with h3 | h3
        · left; exact List.mem_cons_of_mem _ h3
        · right; exact h3

lemma packagesOf_eq (requests : List (Module × FileDescriptorProto)) :
    packagesOf requests = requests.foldl pkStep [] := rfl

lemma foldl_pkStep_nodup :
    ∀ (requests : List (Module × FileDescriptorProto))
      (acc : List (Module × String)), (acc.map Prod.fst).Nodup →
      ((List.foldl pkStep acc requests).map Prod.fst).Nodup := by
  intro requests
  induction requests with
  | nil => intro acc h; simpa using h
  | cons r rest ih =>
    intro acc h
    rw [List.foldl_cons]
    apply ih
    unfold pkStep
    split
    · exact h
    · exact mupdate_fst_nodup _ _ _ h

lemma foldl_pkStep_keyed :
    ∀ (requests : List (Module × FileDescriptorProto)),
      (∀ r ∈ requests, r.1 = Module.fromPackage (r.2.package.getD "")) →
      ∀ (acc : List (Module × String)),
        (∀ e ∈ acc, e.1 = Module.fromPackage e.2) →
        ∀ e ∈ List.foldl pkStep acc requests, e.1 = Module.fromPackage e.2 := by
  intro requests
  induction requests with
  | nil => intro _ acc h; simpa using h
  | cons r rest ih =>
    intro hmod acc h
    rw [List.foldl_cons]
    apply ih (fun x hx => hmod x (List.mem_cons_of_mem _ hx))
    intro e he
    unfold pkStep at he
    split at he
    · exact h e he
    · rcases mem_mupdate _ _ _ _ he with h1 | h1
      · exact h e h1
      · rw [h1]
        exact hmod r (List.mem_cons_self _ _)

lemma foldl_pkStep_isSome (m : Module) :
    ∀ (requests : List (Module × FileDescriptorProto))
      (acc : List (Module × String)),
      (alookup (List.foldl pkStep acc requests) m).isSome
        = (requests.any (fun r => decide (r.1 = m) && !r.2.service.isEmpty)
            || (alookup acc m).isSome) := by
  intro requests
  induction requests with
  | nil => intro acc; simp
  | cons r rest ih =>
    intro acc
    rw [List.foldl_cons, ih, List.any_cons]
    unfold pkStep
    by_cases hs : r.2.service.isEmpty
    · rw [if_pos hs]
      simp [hs]
    · rw [if_neg hs]
      rw [alookup_mupdate]
      by_cases hm : r.1 = m
      · simp [hm, hs]
      · simp [hm, hs]

lemma count_snd_keyed :
    ∀ (l : List (Module × String)), (l.map Prod.fst).Nodup →
      (∀ e ∈ l, e.1 = Module.fromPackage e.2) → ∀ (p : String),
      (l.map Prod.snd).count p
        = if alookup l (Module.fromPackage p) = some p then 1 else 0 := by
  intro l
  induction l with
  | nil => intro _ _ p; simp [alookup]
  | cons e rest ih =>
    intro hnd hk p
    obtain ⟨m, q⟩ := e
    have hmq : m = Module.fromPackage q := hk (m, q) (List.mem_cons_self _ _)
    have hndr : (rest.map Prod.fst).Nodup := (List.nodup_cons.mp hnd).2
    have hmr : m ∉ rest.map Prod.fst := by
      have := (List.nodup_cons.mp hnd).1
      simpa using this
    have hkr : ∀ e ∈ rest, e.1 = Module.fromPackage e.2 :=
      fun e he => hk e (List.mem_cons_of_mem _ he)
    by_cases hqp : q = p
    · subst hqp
      have hcount0 : (rest.map Prod.snd).count q = 0 := by
        rw [List.count_eq_zero]
        intro hmem
        obtain ⟨e, he, hesnd⟩ := List.mem_map.mp hmem
        apply hmr
        have : e.1 = m := by rw [hkr e he, hesnd, ← hmq]
        exact List.mem_map.mpr ⟨e, he, this⟩
      simp only [List.map_cons, List.count_cons, hcount0]
      rw [alookup, if_pos hmq]
      simp
    · have hmp : ¬m = Module.fromPackage p := by
        intro h
        exact hqp (fromPackage_inj (hmq.symm.trans h))
      simp only [List.map_cons, List.count_cons]
      rw [alookup, if_neg hmp, ih hndr hkr p]
      simp [hqp, fun h : p = q => hqp h.symm]

lemma any_congr_on {α : Type} (l : List α) (f g : α → Bool)
    (h : ∀ x ∈ l, f x = g x) : l.any f = l.any g := by
  induction l with
  | nil => rfl
  | cons a t ih =>
    simp only [List.any_cons, h a (List.mem_cons_self _ _),
      ih (fun x hx => h x (List.mem_cons_of_mem _ hx))]

lemma packagesOf_count (requests : List (Module × FileDescriptorProto))
    (hmod : ∀ r ∈ requests, r.1 = Module.fromPackage (r.2.package.getD ""))
    (p : String) :
    ((packagesOf requests).map Prod.snd).count p
      = if requests.any
            (fun r => decide (r.2.package.getD "" = p) && !r.2.service.isEmpty)
        then 1 else 0 := by
  have hnd := foldl_pkStep_nodup requests [] (by simp)
  have hk := foldl_pkStep_keyed requests hmod [] (by simp)
  have hany : requests.any (fun r => decide (r.1 = Module.fromPackage p)
        && !r.2.service.isEmpty)
      = requests.any (fun r => decide (r.2.package.getD "" = p)
        && !r.2.service.isEmpty) := by
    apply any_congr_on
    intro r hr
    have hmr := hmod r hr
    congr 1
    rw [decide_eq_decide]
    constructor
    · intro h
      exact fromPackage_inj (hmr.symm.trans h)
    · intro h
      rw [hmr, h]
  rw [packagesOf_eq, count_snd_keyed _ hnd hk p]
  have hs := foldl_pkStep_isSome (Module.fromPackage p) requests []
  rw [hany] at hs
  simp only [alookup, Option.isSome_none, Bool.or_false] at hs
  rcases halk : alookup (List.foldl pkStep [] requests) (Module.fromPackage p)
      with _ | q
  · rw [halk] at hs
    have hfalse : (requests.any
        (fun r => decide (r.2.package.getD "" = p) && !r.2.service.isEmpty))
        = false := by
      rw [← hs]
      rfl
    rw [if_neg (by simp [halk]), if_neg (by simp [hfalse])]
  · have hmem := alookup_mem _ _ _ halk
    have hqm : Module.fromPackage p = Module.fromPackage q := hk _ hmem
    have hqp : q = p := fromPackage_inj hqm.symm
    subst hqp
    rw [halk] at hs
    have htrue : (requests.any
        (fun r => decide (r.2.package.getD "" = q) && !r.2.service.isEmpty))
        = true := by
      rw [← hs]
      rfl
    rw [if_pos rfl, if_pos htrue]

lemma generateFilesLoop_events {σ : Type} (c : Ctx) (sg : Option (ServiceGen σ)) :
    ∀ (reqs : List (Module × FileDescriptorProto))
      (modules : List (Module × String)) (events : List GenEvent) (gs : σ)
      (m2 : List (Module × String)) (ev2 : List GenEvent) (gs2 : σ),
      generateFilesLoop c sg reqs modules events gs = .ok (m2, ev2, gs2) →
      ev2 = events ++ reqs.map (fun r => GenEvent.fileProcessed r.1) := by
  intro reqs
  induction reqs with
  | nil =>
    intro modules events gs m2 ev2 gs2 h
    cases h
    simp
  | cons r rest ih =>
    intro modules events gs m2 ev2 gs2 h
    obtain ⟨reqM, reqFd⟩ := r
    rw [generateFilesLoop] at h
    obtain ⟨res, hres, h⟩ := bind_ok _ _ _ h
    have he := ih _ _ _ _ _ _ h
    rw [he]
    simp

lemma finalizePackagesLoop_events {σ : Type} (g : ServiceGen σ) :
    ∀ (order : List (Module × String)) (modules : List (Module × String))
      (events : List GenEvent) (gs : σ)
      (m2 : List (Module × String)) (ev2 : List GenEvent) (gs2 : σ),
      finalizePackagesLoop g order modules events gs = .ok (m2, ev2, gs2) →
      ev2 = events ++ order.map (fun e => GenEvent.packageFinalized e.2) := by
  intro order
  induction order with
  | nil =>
    intro modules events gs m2 ev2 gs2 h
    cases h
    simp
  | cons e rest ih =>
    intro modules events gs m2 ev2 gs2 h
    obtain ⟨m, pkg⟩ := e
    rw [finalizePackagesLoop] at h
    rcases halk : alookup modules m with _ | buf
    · rw [halk] at h
      cases h
    · rw [halk] at h
      have he := ih _ _ _ _ _ _ h
      rw [he]
      simp

lemma count_packageFinalized_files (l : List (Module × FileDescriptorProto))
    (p : String) :
    (l.map (fun r => GenEvent.fileProcessed r.1)).count
        (GenEvent.packageFinalized p) = 0 := by
  rw [List.count_eq_zero]
  intro h
  obtain ⟨r, _, habs⟩ := List.mem_map.mp h
  cases habs

lemma count_packageFinalized_map (l : List (Module × String)) (p : String) :
    (l.map (fun e => GenEvent.packageFinalized e.2)).count
        (GenEvent.packageFinalized p) = (l.map Prod.snd).count p := by
  induction l with
  | nil => rfl
  | cons e rest ih =>
    simp only [List.map_cons, List.count_cons, ih]
    by_cases h : e.2 = p
    · simp [h]
    · simp [h, fun hc : GenEvent.packageFinalized e.2 = GenEvent.packageFinalized p
        => h (GenEvent.packageFinalized.inj hc)]

/-- C8: when a service generator is configured, the event trace of
`Config::generate` is the file walks in request order followed by the
per-package finalizations in the `packages`-map iteration order, so every
finalization happens after all files are processed; and for every package
name, `finalize_package` runs exactly once when some file of that package
declares services and never otherwise. -/
theorem finalize_once_per_package {σ : Type} (c : Ctx) (g : ServiceGen σ)
    (gsInit : σ) (requests : List (Module × FileDescriptorProto))
    (finalizeOrder : List (Module × String))
    (modules : List (Module × String)) (events : List GenEvent) (gs2 : σ)
    (p : String)
    (hmod : ∀ r ∈ requests, r.1 = Module.fromPackage (r.2.package.getD ""))
    (hperm : finalizeOrder.Perm (packagesOf requests))
    (hok : configGenerate c (some g) gsInit requests finalizeOrder
      = .ok (modules, events, gs2)) :
    events = requests.map (fun r => GenEvent.fileProcessed r.1)
        ++ finalizeOrder.map (fun e => GenEvent.packageFinalized e.2)
    ∧ events.count (GenEvent.packageFinalized p)
      = (if requests.any
            (fun r => decide (r.2.package.getD "" = p) && !r.2.service.isEmpty)
         then 1 else 0) := by
  unfold configGenerate at hok
  obtain ⟨r1, h1, hok⟩ := bind_ok _ _ _ hok
  obtain ⟨modules1, events1, gs1⟩ := r1
  obtain ⟨r2, h2, hok⟩ := bind_ok _ _ _ hok
  obtain ⟨m2, ev2, g2⟩ := r2
  cases hok
  have hev1 := generateFilesLoop_events c (some g) requests [] [] gsInit _ _ _ h1
  have hev2 := finalizePackagesLoop_events g finalizeOrder _ _ _ _ _ _ h2
  simp only [List.nil_append] at hev1
  rw [hev1] at hev2
  constructor
  · exact hev2
  · rw [hev2, List.count_append, count_packageFinalized_files,
      count_packageFinalized_map, Nat.zero_add]
    rw [(hperm.map Prod.snd).count_eq]
    exact packagesOf_count requests hmod p

set_option maxRecDepth 10000 in
/-- The finalization-trace theorem at two concrete one-service files of
distinct packages, finalized in map order. -/
theorem finalize_once_per_package_witness :
    (eventsC8 = reqC89.map (fun r => GenEvent.fileProcessed r.1)
        ++ orderC89.map (fun e => GenEvent.packageFinalized e.2)
      ∧ eventsC8.count (GenEvent.packageFinalized "pa")
        = (if reqC89.any
              (fun r => decide (r.2.package.getD "" = "pa") && !r.2.service.isEmpty)
           then 1 else 0)) :=
  finalize_once_per_package trivialCtx sgC89 0 reqC89 orderC89 modulesC8 eventsC8 4
    "pa" (by decide) (List.Perm.refl _) rfl

set_option maxRecDepth 10000 in
/-- C9 refuted: with a stateful service generator configured, two runs
over the same requests that iterate the `packages` map in two different
(but equally valid) orders produce different text for the same module —
`// finalized pa at 2` versus `// finalized pa at 3`. -/
theorem generation_determinism_refuted :
    (orderC89.Perm (packagesOf reqC89) ∧ orderC89rev.Perm (packagesOf reqC89))
    ∧ (configGenerate trivialCtx (some sgC89) 0 reqC89 orderC89).toOption.map
        Prod.fst
      ≠ (configGenerate trivialCtx (some sgC89) 0 reqC89 orderC89rev).toOption.map
        Prod.fst := by
  refine ⟨⟨List.Perm.refl _, (packagesOf reqC89).reverse_perm⟩, ?_⟩
  decide

/-- C9 amended: when no service generator is configured, `Config::generate`
never reads the `packages` map, so its result is independent of the
iteration order of that map — generation is deterministic. -/
theorem generation_deterministic_without_services {σ : Type} (c : Ctx) (gs : σ)
    (requests : List (Module × FileDescriptorProto))
    (o1 o2 : List (Module × String)) :
    configGenerate c none gs requests o1 = configGenerate c none gs requests o2 :=
  rfl

end Ppsc
